import Mathlib

/-!
Verification development for the morpho-cli line editor (src/linedit.c).

The C code is shallowly embedded: buffers are lists of natural numbers
(bytes, values < 256), C strings carry an allocation flag mirroring the
NULL/non-NULL state of the underlying pointer, machine loops become
fuel-indexed recursions whose fuel provably suffices, and the editor's
keypress state machine becomes an explicit step function on a state
record.  Reads of the terminating NUL byte that the C code performs one
past the logical length are modelled by a total byte accessor that
returns 0 out of bounds, exactly like the terminator.
-/

set_option maxRecDepth 10000

namespace Linedit

/-- Total byte accessor: in C every linedit string is kept
NUL-terminated, so reading at an index equal to the length yields the
terminator byte 0; we model any out-of-bounds read as 0. -/
def byteAt (s : List ℕ) (i : ℕ) : ℕ := s[i]?.getD 0

/-- Embedding of linedit_utf8numberofbytes: number of bytes in the UTF-8
character whose lead byte is b, or 0 for a continuation byte. -/
def linedit_utf8numberofbytes (b : ℕ) : ℕ :=
  if b &&& 0xc0 = 0x80 then 0
  else if b &&& 0xf8 = 0xf0 then 4
  else if b &&& 0xf0 = 0xe0 then 3
  else if b &&& 0xe0 = 0xc0 then 2
  else 1

/-- Loop of linedit_utf8count: starting at byte index pos with n
characters counted so far, count UTF-8 characters of s lying in byte
range [start, start+len), stopping at a NUL byte; none models the
function returning false on a corrupt lead byte. -/
def utf8countLoop (s : List ℕ) (start len : ℕ) : ℕ → ℕ → ℕ → Option ℕ
  | _pos, n, 0 => some n   -- fuel exhausted; never reached with the fuel used below
  | pos, n, fuel + 1 =>
    if pos < start + len ∧ byteAt s pos ≠ 0 then
      let adv := linedit_utf8numberofbytes (byteAt s pos)
      if adv = 0 then none
      else utf8countLoop s start len (pos + adv) (n + 1) fuel
    else some n

/-- Embedding of linedit_utf8count over the byte range [start, start+len)
of s (the C function receives the pointer s+start and the length len). -/
def linedit_utf8count (s : List ℕ) (start len : ℕ) : Option ℕ :=
  utf8countLoop s start len start 0 (s.length + 1)

/-- Mutable-string model: alloc mirrors whether the C string pointer is
non-NULL, data holds the bytes up to (and excluding) the terminator. -/
structure LString where
  alloc : Bool
  data : List ℕ
deriving DecidableEq, Repr

/-- Embedding of linedit_stringinit / a fresh linedit_string: NULL
pointer, zero length. -/
def linedit_stringinit : LString := ⟨false, []⟩

/-- Embedding of linedit_stringclear: the storage is freed and the
string reinitialized. -/
def linedit_stringclear (_s : LString) : LString := linedit_stringinit

/-- Embedding of linedit_stringappend: the resize always succeeds in the
model, so appending marks the string allocated and concatenates. -/
def linedit_stringappend (s : LString) (c : List ℕ) : LString :=
  ⟨true, s.data ++ c⟩

/-- Embedding of linedit_stringaddcstring (append a NUL-terminated C
string, modelled as its list of bytes before the terminator). -/
def linedit_stringaddcstring (s : LString) (c : List ℕ) : LString :=
  ⟨true, s.data ++ c⟩

/-- Loop of linedit_stringutf8index: j is the byte offset walked so far
relative to offset, nchars the characters counted; returns the byte
offset of character i, none when the loop falls off the end (C returns
false). -/
def utf8indexLoop (s : List ℕ) (i offset : ℕ) : ℕ → ℕ → ℕ → Option ℕ
  | _j, _nchars, 0 => none   -- fuel exhausted; never reached with the fuel used below
  | j, nchars, fuel + 1 =>
    if j + offset ≤ s.length then
      if nchars = i then some j
      else
        let adv := linedit_utf8numberofbytes (byteAt s (offset + j))
        if adv = 0 then none
        else utf8indexLoop s i offset (j + adv) (nchars + 1) fuel
    else none

/-- Embedding of linedit_stringutf8index: byte offset (from offset) of
character i of the string, counting from byte offset. -/
def linedit_stringutf8index (s : List ℕ) (i offset : ℕ) : Option ℕ :=
  utf8indexLoop s i offset 0 0 (s.length + 2)

/-- Embedding of strlen-truncation: linedit_stringdelete recomputes the
length with strlen, which stops at the first NUL byte. -/
def cstrTrunc (l : List ℕ) : List ℕ := l.takeWhile (fun b => b ≠ 0)

/-- Embedding of linedit_stringinsert: insert bytes c at character
position posn; if the character offset cannot be resolved the function
returns without changes, if it lands at the end the bytes are appended. -/
def linedit_stringinsert (s : LString) (posn : ℕ) (c : List ℕ) : LString :=
  match linedit_stringutf8index s.data posn 0 with
  | none => s
  | some offset =>
    if offset < s.data.length then
      ⟨s.alloc, s.data.take offset ++ c ++ s.data.drop offset⟩
    else
      linedit_stringappend s c

/-- Embedding of linedit_stringdelete: delete n characters starting at
character position posn. -/
def linedit_stringdelete (s : LString) (posn n : ℕ) : LString :=
  if s.data.length < n then s
  else
    match linedit_stringutf8index s.data posn 0 with
    | none => s
    | some offset =>
      match linedit_stringutf8index s.data n offset with
      | none => s
      | some nbytes =>
        if offset < s.data.length then
          if offset + nbytes < s.data.length then
            ⟨s.alloc, cstrTrunc (s.data.take offset ++ s.data.drop (offset + nbytes))⟩
          else
            ⟨s.alloc, cstrTrunc (s.data.take offset)⟩
        else s

/-- Embedding of linedit_stringlength: the character count, left at 0
when linedit_utf8count fails. -/
def linedit_stringlength (s : LString) : ℕ :=
  (linedit_utf8count s.data 0 s.data.length).getD 0

/-- Embedding of linedit_stringlocate as byte offset of character posn
(the C function returns a pointer into the buffer, or NULL on failure). -/
def linedit_stringlocate (s : LString) (posn : ℕ) : Option ℕ :=
  linedit_stringutf8index s.data posn 0

/-!  UTF-8 validity.  A byte list is one valid character when its lead
byte announces exactly its length, every byte is a non-NUL octet, and
the trailing bytes are continuation bytes.  A buffer is valid when it is
a concatenation of valid characters; the decomposition is the witness
list cs. -/
/-- One well-formed UTF-8 character as a byte list. -/
def Utf8Char (c : List ℕ) : Prop :=
  c ≠ [] ∧ (∀ b ∈ c, 0 < b ∧ b < 256) ∧
    linedit_utf8numberofbytes c.headI = c.length ∧
    ∀ b ∈ c.tail, linedit_utf8numberofbytes b = 0

instance : DecidablePred Utf8Char := fun c => by
  unfold Utf8Char; infer_instance

/-- A list of well-formed UTF-8 characters (a buffer decomposition). -/
def Utf8Chars (cs : List (List ℕ)) : Prop := ∀ c ∈ cs, Utf8Char c

instance : DecidablePred Utf8Chars := fun cs => by
  unfold Utf8Chars; infer_instance

/-- Byte length of the first k characters of the decomposition cs. -/
def btake : List (List ℕ) → ℕ → ℕ
  | _, 0 => 0
  | [], _ + 1 => 0
  | c :: cs, k + 1 => c.length + btake cs k

/-!  Line/column coordinates.  linedit_stringcoordinates walks the
buffer character by character, treating byte 10 as a line break;
linedit_stringfindposition is its inverse walk. -/
/-- Loop of linedit_stringcoordinates: i is the byte index, n the
character index, (x, y) the column and line accumulated so far.  The
walk stops at character posn (posn = -1 walks the whole string), at the
end of the buffer, or on a corrupt lead byte. -/
def coordLoop (s : List ℕ) (posn : ℤ) : ℕ → ℤ → ℤ → ℕ → ℕ → ℤ × ℤ
  | _i, x, y, _n, 0 => (x, y)   -- fuel exhausted; never reached with the fuel used below
  | i, x, y, n, fuel + 1 =>
    if i < s.length then
      if (n : ℤ) = posn then (x, y)
      else
        let c := byteAt s i
        let x2 : ℤ := if c = 10 then 0 else x + 1
        let y2 : ℤ := if c = 10 then y + 1 else y
        let adv := linedit_utf8numberofbytes c
        if adv = 0 then (x2, y2)
        else coordLoop s posn (i + adv) x2 y2 (n + 1) fuel
    else (x, y)

/-- Embedding of linedit_stringcoordinates. -/
def linedit_stringcoordinates (s : List ℕ) (posn : ℤ) : ℤ × ℤ :=
  coordLoop s posn 0 0 0 0 (s.length + 1)

/-- Loop of linedit_stringfindposition: walks like coordLoop and stops
at the first character whose coordinates are (x, y), returning its
character index; on a newline past line y it stops at the newline. -/
def findLoop (s : List ℕ) (x y : ℤ) : ℕ → ℤ → ℤ → ℕ → ℕ → ℕ
  | _i, _xx, _yy, n, 0 => n   -- fuel exhausted; never reached with the fuel used below
  | i, xx, yy, n, fuel + 1 =>
    if i < s.length then
      if xx = x ∧ yy = y then n
      else
        let c := byteAt s i
        let adv := linedit_utf8numberofbytes c
        if c = 10 then
          if yy + 1 > y then n
          else if adv = 0 then n
          else findLoop s x y (i + adv) 0 (yy + 1) (n + 1) fuel
        else if adv = 0 then n
        else findLoop s x y (i + adv) (xx + 1) yy (n + 1) fuel
    else n

/-- Embedding of linedit_stringfindposition. -/
def linedit_stringfindposition (s : List ℕ) (x y : ℤ) : ℕ :=
  findLoop s x y 0 0 0 0 (s.length + 1)

/-- Character-level version of the coordinate walk over the buffer
decomposition. -/
def coordCWalk : List (List ℕ) → ℤ → ℕ → ℤ → ℤ → ℤ × ℤ
  | [], _, _, x, y => (x, y)
  | c :: rest, posn, n, x, y =>
    if (n : ℤ) = posn then (x, y)
    else if c.headI = 10 then coordCWalk rest posn (n + 1) 0 (y + 1)
    else coordCWalk rest posn (n + 1) (x + 1) y

/-- Character-level version of the position-finding walk. -/
def findCWalk : List (List ℕ) → ℤ → ℤ → ℕ → ℤ → ℤ → ℕ
  | [], _, _, n, _, _ => n
  | c :: rest, x, y, n, xx, yy =>
    if xx = x ∧ yy = y then n
    else if c.headI = 10 then
      (if yy + 1 > y then n else findCWalk rest x y (n + 1) 0 (yy + 1))
    else findCWalk rest x y (n + 1) (xx + 1) yy

/-!  Round trip between coordinates and position on the character-level
walk, via lexicographic monotonicity of the (line, column) pair. -/
/-- Lexicographic order on (column, line) pairs, line-major. -/
def lexLe (a b : ℤ × ℤ) : Prop := a.2 < b.2 ∨ (a.2 = b.2 ∧ a.1 ≤ b.1)

/-- Strict lexicographic order on (column, line) pairs, line-major. -/
def lexLt (a b : ℤ × ℤ) : Prop := a.2 < b.2 ∨ (a.2 = b.2 ∧ a.1 < b.1)

/-!  The editor state machine (linedit_processkeypress and the helpers
it calls).  Callbacks (completer, multiline predicate, grapheme
splitter) are function parameters, mirroring the callback slots of the
lineditor structure; the terminal I/O the C code performs alongside
these state changes has no effect on the editor state and is omitted. -/
/-- Editing mode (lineditormode). -/
inductive Mode
  | default
  | selection
  | history
deriving DecidableEq, Repr

/-- One decoded keypress as consumed by linedit_processkeypress; char
carries the UTF-8 byte sequence (c, nbytes) of a CHARACTER keypress and
ctrl the translated letter code of a CTRL keypress. -/
inductive Key
  | char (c : List ℕ)
  | del
  | left
  | right
  | sleft
  | sright
  | up
  | down
  | ret
  | tab
  | ctrl (c : ℕ)
  | unknown
deriving DecidableEq, Repr

/-- The callback slots of the lineditor structure that the keypress
machine consults. -/
structure EditConfig where
  completer : Option (List ℕ → List (List ℕ))
  multiline : Option (List ℕ → Bool)
  graphemefn : Option (List ℕ → ℕ)

/-- The mutable editor state touched by keypress processing. -/
structure EditState where
  mode : Mode
  posn : ℤ
  sposn : ℤ
  current : LString
  clipboard : LString
  history : List (List ℕ)
  hposn : ℕ
  suggestions : List (List ℕ)
  sugposn : ℕ
deriving DecidableEq, Repr

/-- Conversion of a C int to size_t (two's complement, 64-bit size_t):
nonnegative values pass through, negative ones wrap to huge values. -/
def sizeTOfInt (z : ℤ) : ℕ :=
  if z < 0 then (z + 18446744073709551616).toNat else z.toNat

/-- Conversion of a C int plus unsigned increment to the unsigned value
handed to linedit_stringlistselect (32-bit wraparound). -/
def uintOfInt (z : ℤ) : ℕ := (z % 4294967296).toNat

/-- Embedding of linedit_setmode. -/
def linedit_setmode (s : EditState) (m : Mode) : EditState :=
  let s1 :=
    if m ≠ Mode.history then
      let sa := if s.mode = Mode.history then
          { s with history := s.history.tail }   -- linedit_stringlistremove of the head
        else s
      { sa with hposn := 0 }
    else s
  let s2 :=
    if m = Mode.selection then
      (if s1.sposn < 0 then { s1 with sposn := s1.posn } else s1)
    else { s1 with sposn := -1 }
  { s2 with mode := m }

/-- Embedding of linedit_setposition. -/
def linedit_setposition (s : EditState) (p : ℤ) : EditState :=
  { s with posn := if p < 0 then (linedit_stringlength s.current : ℤ) else p }

/-- Embedding of linedit_advanceposition. -/
def linedit_advanceposition (s : EditState) (delta : ℤ) : EditState :=
  let p1 := s.posn + delta
  let p2 := if p1 < 0 then 0 else p1
  let lw : ℤ := (linedit_stringlength s.current : ℤ)
  { s with posn := if p2 > lw then lw else p2 }

/-- Embedding of linedit_atend. -/
def linedit_atend (s : EditState) : Bool :=
  s.posn = (linedit_stringlength s.current : ℤ)

/-- Loop of linedit_stringlistselect: stops at entry n or at the last
entry, reporting the entry and the index actually reached. -/
def stringlistselectLoop : List (List ℕ) → ℕ → ℕ → Option (List ℕ) × ℕ
  | [], _, i => (none, i)
  | [a], _, i => (some a, i)
  | a :: b :: rest, n, i =>
    if i = n then (some a, i) else stringlistselectLoop (b :: rest) n (i + 1)

/-- Embedding of linedit_stringlistselect. -/
def linedit_stringlistselect (l : List (List ℕ)) (n : ℕ) :
    Option (List ℕ) × ℕ :=
  stringlistselectLoop l n 0

/-- Embedding of linedit_historyadd (linedit_stringlistadd pushes a copy
of the string at the front of the history list). -/
def linedit_historyadd (s : EditState) (str : List ℕ) : EditState :=
  { s with history := str :: s.history }

/-- Embedding of linedit_historyselect: copy the chosen entry into the
current buffer (which reallocates it) and report the index selected. -/
def linedit_historyselect (s : EditState) (n : ℕ) : EditState × ℕ :=
  match linedit_stringlistselect s.history n with
  | (some str, m) => ({ s with current := ⟨true, str⟩ }, m)
  | (none, m) => (s, m)

/-- Embedding of linedit_historyadvance: the int cursor plus the
unsigned delta wraps mod 2^32 before selection clamps it back. -/
def linedit_historyadvance (s : EditState) (n : ℤ) : EditState :=
  let r := uintOfInt ((s.hposn : ℤ) + n)
  match linedit_historyselect s r with
  | (s1, m) => { s1 with hposn := m }

/-- Embedding of linedit_aresuggestionsavailable. -/
def linedit_aresuggestionsavailable (s : EditState) : Bool :=
  !s.suggestions.isEmpty

/-- Embedding of linedit_currentsuggestion. -/
def linedit_currentsuggestion (s : EditState) : Option (List ℕ) :=
  (linedit_stringlistselect s.suggestions s.sugposn).1

/-- Embedding of linedit_advancesuggestions. -/
def linedit_advancesuggestions (s : EditState) (n : ℕ) : EditState :=
  let rposn := s.sugposn + n
  match linedit_stringlistselect s.suggestions rposn with
  | (_, nposn) => if rposn ≠ nposn then { s with sugposn := 0 }
                  else { s with sugposn := nposn }

/-- Embedding of linedit_generatesuggestions: with a completer
installed, the list is cleared (resetting its cursor) and refilled when
the cursor sits at the end of an allocated buffer. -/
def linedit_generatesuggestions (cfg : EditConfig) (s : EditState) : EditState :=
  match cfg.completer with
  | none => s
  | some f =>
    if s.current.alloc && linedit_atend s then
      { s with suggestions := f s.current.data, sugposn := 0 }
    else
      { s with suggestions := [], sugposn := 0 }

/-- Embedding of linedit_shouldmultiline. -/
def linedit_shouldmultiline (cfg : EditConfig) (s : EditState) : Bool :=
  match cfg.multiline with
  | some f => s.current.alloc && f s.current.data
  | none => false

/-- Embedding of linedit_graphemelength at byte offset off of the
buffer: 0 on the terminator, otherwise the installed splitter or the
one-code-point fallback. -/
def linedit_graphemelength (cfg : EditConfig) (data : List ℕ) (off : ℕ) : ℕ :=
  if byteAt data off = 0 then 0
  else match cfg.graphemefn with
    | some f => f (data.drop off)
    | none => linedit_utf8numberofbytes (byteAt data off)

/-- Embedding of linedit_nextgrapheme.  When stringlocate fails the C
code dereferences a NULL pointer; that happens only for positions past
the end, which the editor never produces, and is modelled as a no-op. -/
def linedit_nextgrapheme (cfg : EditConfig) (s : EditState) : EditState :=
  match linedit_stringlocate s.current (sizeTOfInt s.posn) with
  | none => s
  | some off =>
    let len := linedit_graphemelength cfg s.current.data off
    match linedit_utf8count s.current.data off len with
    | none => s
    | some count => { s with posn := s.posn + count }

/-- Loop of linedit_prevgrapheme: walk graphemes from the start of the
buffer up to byte offset op, remembering the start of the last one. -/
def prevLoop (cfg : EditConfig) (data : List ℕ) (op : ℕ) : ℕ → ℕ → ℕ → Option ℕ
  | _c, prev, 0 => some prev   -- fuel exhausted; never reached with the fuel used below
  | c, prev, fuel + 1 =>
    if c < op then
      let len := linedit_graphemelength cfg data c
      if len = 0 then none
      else prevLoop cfg data op (c + len) c fuel
    else some prev

/-- Embedding of linedit_prevgrapheme (same NULL-locate caveat as
linedit_nextgrapheme). -/
def linedit_prevgrapheme (cfg : EditConfig) (s : EditState) : EditState :=
  match linedit_stringlocate s.current (sizeTOfInt s.posn) with
  | none => s
  | some op =>
    match prevLoop cfg s.current.data op 0 0 (op + 1) with
    | none => s
    | some prev =>
      match linedit_utf8count s.current.data prev (op - prev) with
      | none => s
      | some count => { s with posn := s.posn - count }

/-- Embedding of linedit_processarrowkeypress (the linedit_atnewline
query it also performs has no effect on the state). -/
def linedit_processarrowkeypress (cfg : EditConfig) (s : EditState)
    (m : Mode) (delta : ℤ) : EditState :=
  let s1 := linedit_setmode s m
  if delta > 0 then linedit_nextgrapheme cfg s1 else linedit_prevgrapheme cfg s1

/-- Embedding of linedit_processchangeline. -/
def linedit_processchangeline (s : EditState) (delta : ℤ) : EditState :=
  let s1 := linedit_setmode s Mode.default
  let xy := linedit_stringcoordinates s1.current.data s1.posn
  let y := xy.2 + delta
  let y2 := if y < 0 then 0 else y
  { s1 with posn := (linedit_stringfindposition s1.current.data xy.1 y2 : ℤ) }

/-- Embedding of linedit_movetoend (the line feeds it prints do not
change the state). -/
def linedit_movetoend (s : EditState) : EditState :=
  linedit_setposition s (-1)

/-- The switch of linedit_processkeypress for one keypress: returns the
new state, whether the editing loop continues (false on accepting
RETURN and on Ctrl-G), and whether suggestions are regenerated. -/
def applyKey (cfg : EditConfig) (s : EditState) : Key → EditState × Bool × Bool
  | Key.char c =>
    let s1 := linedit_setmode s Mode.default
    let s2 := { s1 with current := linedit_stringinsert s1.current (sizeTOfInt s1.posn) c }
    (linedit_advanceposition s2 1, true, true)
  | Key.del =>
    let s1 :=
      if s.mode = Mode.selection then
        let lposn := min s.sposn s.posn
        let rposn := max s.sposn s.posn
        let cur := linedit_stringdelete s.current (sizeTOfInt lposn) (sizeTOfInt (rposn - lposn))
        { s with current := cur, posn := lposn }
      else if s.posn > 0 then
        let s2 := { s with current := linedit_stringdelete s.current (sizeTOfInt (s.posn - 1)) 1 }
        linedit_advanceposition s2 (-1)
      else s
    (linedit_setmode s1 Mode.default, true, true)
  | Key.left => (linedit_processarrowkeypress cfg s Mode.default (-1), true, true)
  | Key.right => (linedit_processarrowkeypress cfg s Mode.default 1, true, true)
  | Key.sleft => (linedit_processarrowkeypress cfg s Mode.selection (-1), true, true)
  | Key.sright => (linedit_processarrowkeypress cfg s Mode.selection 1, true, true)
  | Key.up =>
    let s1 :=
      if s.mode ≠ Mode.history then
        let sa := linedit_setmode s Mode.history
        linedit_historyadd sa sa.current.data
      else s
    let s2 := linedit_historyadvance s1 1
    (linedit_setposition s2 (-1), true, true)
  | Key.down =>
    if s.mode = Mode.history then
      let s1 := linedit_historyadvance s (-1)
      (linedit_setposition s1 (-1), true, true)
    else if linedit_aresuggestionsavailable s then
      (linedit_advancesuggestions s 1, true, false)
    else (s, true, true)
  | Key.ret =>
    if linedit_shouldmultiline cfg s then
      let s1 := { s with current := linedit_stringaddcstring s.current [10] }
      (linedit_advanceposition s1 1, true, true)
    else (s, false, true)
  | Key.tab =>
    let s1 := linedit_setmode s Mode.default
    if linedit_aresuggestionsavailable s1 then
      match linedit_currentsuggestion s1 with
      | some sugg =>
        let s2 := { s1 with current := linedit_stringaddcstring s1.current sugg }
        (linedit_movetoend s2, true, true)
      | none => (s1, true, true)
    else
      let s2 := { s1 with current := linedit_stringinsert s1.current (sizeTOfInt s1.posn) [9] }
      (linedit_advanceposition s2 1, true, true)
  | Key.ctrl c =>
    if c = 65 then   -- Ctrl-A: move to start of line
      let s1 := linedit_setmode s Mode.default
      let line := (linedit_stringcoordinates s1.current.data s1.posn).2
      ({ s1 with posn := (linedit_stringfindposition s1.current.data 0 line : ℤ) }, true, true)
    else if c = 66 then   -- Ctrl-B: move backward
      (linedit_processarrowkeypress cfg s Mode.default (-1), true, true)
    else if c = 67 then   -- Ctrl-C: copy
      (if s.mode = Mode.selection then
        let lposn := min s.sposn s.posn
        let rposn := max s.sposn s.posn
        match linedit_stringutf8index s.current.data (sizeTOfInt lposn) 0 with
        | none => s
        | some lindx =>
          match linedit_stringutf8index s.current.data (sizeTOfInt rposn) 0 with
          | none => s
          | some rindx =>
            let cleared := linedit_stringclear s.clipboard
            let clip := linedit_stringappend cleared ((s.current.data.drop lindx).take (rindx - lindx))
            { s with clipboard := clip }
      else s, true, true)
    else if c = 68 then   -- Ctrl-D: delete character under the cursor
      let s1 := linedit_setmode s Mode.default
      ({ s1 with current := linedit_stringdelete s1.current (sizeTOfInt s1.posn) 1 }, true, true)
    else if c = 69 then   -- Ctrl-E: move to end of line
      let s1 := linedit_setmode s Mode.default
      let line := (linedit_stringcoordinates s1.current.data s1.posn).2
      ({ s1 with posn := (linedit_stringfindposition s1.current.data (-1) line : ℤ) }, true, true)
    else if c = 70 then   -- Ctrl-F: move forward
      (linedit_processarrowkeypress cfg s Mode.default 1, true, true)
    else if c = 71 then   -- Ctrl-G: abort the session
      ({ s with current := linedit_stringclear s.current, posn := 0 }, false, true)
    else if c = 76 then   -- Ctrl-L: clear the buffer
      let s1 := linedit_setmode s Mode.default
      ({ s1 with current := linedit_stringclear s1.current, posn := 0 }, true, true)
    else if c = 78 then   -- Ctrl-N: next line
      (linedit_processchangeline s 1, true, true)
    else if c = 80 then   -- Ctrl-P: previous line
      (linedit_processchangeline s (-1), true, true)
    else if c = 86 then   -- Ctrl-V: paste
      let s1 := linedit_setmode s Mode.default
      if s1.clipboard.data.length > 0 then
        let cur := linedit_stringinsert s1.current (sizeTOfInt s1.posn) s1.clipboard.data
        let s2 := { s1 with current := cur }
        (linedit_advanceposition s2 (linedit_stringlength s2.clipboard), true, true)
      else (s1, true, true)
    else (s, true, true)
  | Key.unknown => (s, true, true)

/-- Embedding of one iteration of linedit_processkeypress (one keypress
of a burst followed, when the burst continues the session, by
suggestion regeneration). -/
def linedit_processkeypress (cfg : EditConfig) (s : EditState) (k : Key) :
    EditState × Bool :=
  match applyKey cfg s k with
  | (s1, false, _) => (s1, false)
  | (s1, true, regen) =>
    ((if regen then linedit_generatesuggestions cfg s1 else s1), true)

/-- States observed after each processed keypress of a session, stopping
after the keypress that ends the session. -/
def runKeys (cfg : EditConfig) : EditState → List Key → List EditState
  | _, [] => []
  | s, k :: ks =>
    match linedit_processkeypress cfg s k with
    | (s1, true) => s1 :: runKeys cfg s1 ks
    | (s1, false) => [s1]

/-- Editor state at the top of the keypress loop of linedit_supported
for a freshly initialized editor: linedit_init zeroes the callback and
list fields and linedit_supported then sets the mode (which resets
sposn) and the position. -/
def initState : EditState :=
  ⟨Mode.default, 0, -1, linedit_stringinit, linedit_stringinit, [], 0, [], 0⟩

/-!  The editor invariant. -/
/-- A byte buffer that is a concatenation of well-formed UTF-8
characters. -/
def ValidBuf (l : List ℕ) : Prop := ∃ cs, Utf8Chars cs ∧ l = cs.flatten

/-- State components of the editor invariant that do not mention the
cursor: the buffer, history entries, clipboard and suggestions are valid
UTF-8, the selection anchor is -1 exactly outside selection mode and
nonnegative inside it, and an unallocated buffer is empty. -/
def InvCore (s : EditState) : Prop :=
  ValidBuf s.current.data ∧
  (s.mode = Mode.selection ↔ s.sposn ≠ -1) ∧
  (s.mode = Mode.selection → 0 ≤ s.sposn) ∧
  (∀ g ∈ s.history, ValidBuf g) ∧
  ValidBuf s.clipboard.data ∧
  (∀ g ∈ s.suggestions, ValidBuf g) ∧
  (s.current.alloc = false → s.current.data = [])

/-- The editor invariant: the core invariant plus the cursor bounds. -/
def Inv (s : EditState) : Prop :=
  InvCore s ∧ 0 ≤ s.posn ∧ s.posn ≤ (linedit_stringlength s.current : ℤ)

/-- Hypothesis on the completion callback: suggested strings are valid
UTF-8 (the completer contract hands back printable suffixes). -/
def ConfigOK (cfg : EditConfig) : Prop :=
  ∀ f, cfg.completer = some f → ∀ l g, g ∈ f l → ValidBuf g

/-- Hypothesis on decoded keypresses: a CHARACTER keypress carries one
well-formed UTF-8 character, as linedit_readkey produces. -/
def KeyOK : Key → Prop
  | Key.char c => Utf8Char c
  | _ => True

instance : DecidablePred KeyOK := fun k => by
  cases k <;> unfold KeyOK <;> infer_instance

/-- Keypress loop of linedit_supported: process keypresses until one
ends the session (accepting RETURN or Ctrl-G). -/
def runLoop (cfg : EditConfig) : EditState → List Key → EditState
  | s, [] => s
  | s, k :: ks =>
    match linedit_processkeypress cfg s k with
    | (s1, true) => runLoop cfg s1 ks
    | (s1, false) => s1

/-- Embedding of one linedit() call on a supported terminal: clear the
buffer, set default mode and position 0, run the keypress loop, then
move to the end, clear suggestions, reset the mode, record nonempty
input in the history, and return the C string of the buffer (none
models the NULL pointer of an unallocated buffer). -/
def linedit_session (cfg : EditConfig) (s0 : EditState) (keys : List Key) :
    Option (List ℕ) × EditState :=
  let s1 := { s0 with current := linedit_stringclear s0.current }
  let s2 := linedit_setposition (linedit_setmode s1 Mode.default) 0
  let sf := runLoop cfg s2 keys
  let s3 := linedit_movetoend sf
  let s4 := { s3 with suggestions := [], sugposn := 0 }
  let s5 := linedit_setmode s4 Mode.default
  let s6 := if s5.current.data.length > 0 then linedit_historyadd s5 s5.current.data
            else s5
  ((if s6.current.alloc then some s6.current.data else none), s6)

/-- The grapheme width dictionary: an open-addressed hash table whose
slots hold a copied grapheme key and its display width. -/
structure GraphemeDict where
  capacity : ℕ
  contents : List (Option (List ℕ × ℤ))
  count : ℕ
  deriving DecidableEq, Repr

/-- Embedding of linedit_hashstring (FNV-1a over 32-bit unsigned
arithmetic; a char with its top bit set is sign-extended before the
xor, as on a platform with signed char). -/
def linedit_hashstring (key : List ℕ) : ℕ :=
  key.foldl
    (fun h b => ((h ^^^ (if b < 128 then b else 4294967040 + b)) * 16777619) % 4294967296)
    2166136261

/-- strncmp(a, b, n) == 0 for NUL-terminated strings modelled as byte
lists: compare up to n bytes, byte 0 standing for the terminator. -/
def strncmpZero : List ℕ → List ℕ → ℕ → Bool
  | _, _, 0 => true
  | a, b, n + 1 =>
    let ca := a.getD 0 0
    let cb := b.getD 0 0
    if ca ≠ cb then false
    else if ca = 0 then true
    else strncmpZero a.tail b.tail n

/-- strndup(g, len): the stored copy of a grapheme key (at most len
bytes, cut at the first NUL). -/
def linedit_strndup (g : List ℕ) (len : ℕ) : List ℕ := cstrTrunc (g.take len)

/-- Probe loop of linedit_graphemefind: from slot i, stop at a blank
slot (not found, reporting the slot) or at a slot whose stored key
matches the first len bytes (found); none models falling back to the
starting slot after a full cycle, where the C code returns false without
writing posn. -/
def graphemefindLoop (contents : List (Option (List ℕ × ℤ))) (cap : ℕ)
    (start : ℕ) (g : List ℕ) (len : ℕ) : ℕ → ℕ → Option (ℕ × Bool)
  | _i, 0 => none
  | i, fuel + 1 =>
    match contents.getD i none with
    | none => some (i, false)
    | some e =>
      if strncmpZero g e.1 len then some (i, true)
      else
        let i2 := (i + 1) % cap
        if i2 = start then none
        else graphemefindLoop contents cap start g len i2 fuel

/-- Embedding of linedit_graphemefind. -/
def linedit_graphemefind (dict : GraphemeDict) (g : List ℕ) (len : ℕ) :
    Option (ℕ × Bool) :=
  if dict.capacity = 0 then none
  else
    graphemefindLoop dict.contents dict.capacity
      (linedit_hashstring g % dict.capacity) g len
      (linedit_hashstring g % dict.capacity) dict.capacity

mutual
/-- Embedding of linedit_graphemeinsert: grow the table when needed,
then probe; an existing match leaves the table unchanged, otherwise the
key is copied into the blank slot found.  The fuel bounds the depth of
the insert/resize recursion; none models an allocation failure (and the
uninitialized-posn path when the probe cycles with no blank slot). -/
def graphemeinsertFuel (fuel : ℕ) (dict : GraphemeDict) (g : List ℕ)
    (len : ℕ) (width : ℤ) : Option GraphemeDict :=
  match fuel with
  | 0 => none
  | fuel + 1 =>
    let dict1? :=
      if dict.capacity = 0 then graphemeresizeFuel fuel dict 8
      else if (dict.capacity >>> 1) + (dict.capacity >>> 2) < dict.count + 1 then
        graphemeresizeFuel fuel dict (2 * dict.capacity)
      else some dict
    match dict1? with
    | none => none
    | some dict1 =>
      match linedit_graphemefind dict1 g len with
      | some (_p, true) => some dict1
      | some (p, false) =>
        some { dict1 with
          contents := dict1.contents.set p (some (linedit_strndup g len, width)),
          count := dict1.count + 1 }
      | none => none
termination_by structural fuel

/-- Embedding of linedit_graphemeresize: allocate a cleared table of the
requested size and re-insert the old entries in slot order. -/
def graphemeresizeFuel (fuel : ℕ) (dict : GraphemeDict) (size : ℕ) :
    Option GraphemeDict :=
  match fuel with
  | 0 => none
  | fuel + 1 => reinsertFuel fuel ⟨size, List.replicate size none, 0⟩ dict.contents
termination_by structural fuel

/-- The copy loop of linedit_graphemeresize over the old slots. -/
def reinsertFuel (fuel : ℕ) (d : GraphemeDict)
    (lst : List (Option (List ℕ × ℤ))) : Option GraphemeDict :=
  match fuel with
  | 0 => none
  | fuel + 1 =>
    match lst with
    | [] => some d
    | none :: rest => reinsertFuel fuel d rest
    | some e :: rest =>
      match graphemeinsertFuel fuel d e.1 e.1.length e.2 with
      | none => none
      | some d2 => reinsertFuel fuel d2 rest
termination_by structural fuel
end

/-- Public entry for a single insertion: at most one resize can happen
on the way (a fresh rehash never re-triggers the growth test) and its
copy loop makes one insertion per old slot, so this fuel covers every
run of the C code. -/
def linedit_graphemeinsert (dict : GraphemeDict) (g : List ℕ) (len : ℕ)
    (width : ℤ) : Option GraphemeDict :=
  graphemeinsertFuel (dict.contents.length + 8) dict g len width

/-- Embedding of linedit_graphemelookup: the width stored at the slot
the probe finds, or none when the key is absent. -/
def linedit_graphemelookup (dict : GraphemeDict) (g : List ℕ) (len : ℕ) :
    Option ℤ :=
  if dict.capacity = 0 then none
  else
    match linedit_graphemefind dict g len with
    | some (p, true) =>
      match dict.contents.getD p none with
      | some e => some e.2
      | none => none
    | _ => none

/-- C6 counterexample: the grapheme "(" is cached with width 1, but
after caching "(*" (whose key "(" is a strict prefix of) and five more
one-byte graphemes — the fifth triggering the resize from 8 to 16
slots, whose rehash finds "(" already "present" at the reinserted
"(*" and drops it — looking up "(" returns width 2. -/
def c6d1 : GraphemeDict :=
  ⟨8, [none, none, none, none, none, none, none, some ([40], 1)], 1⟩

def c6d2 : GraphemeDict :=
  ⟨8, [some ([40, 42], 2), none, none, none, none, none, none,
       some ([40], 1)], 2⟩

def c6d3 : GraphemeDict :=
  ⟨8, [some ([40, 42], 2), none, none, none, some ([65], 1), none, none,
       some ([40], 1)], 3⟩

def c6d4 : GraphemeDict :=
  ⟨8, [some ([40, 42], 2), none, none, none, some ([65], 1), some ([66], 1),
       none, some ([40], 1)], 4⟩

def c6d5 : GraphemeDict :=
  ⟨8, [some ([40, 42], 2), none, some ([67], 1), none, some ([65], 1),
       some ([66], 1), none, some ([40], 1)], 5⟩

def c6d6 : GraphemeDict :=
  ⟨8, [some ([40, 42], 2), none, some ([67], 1), some ([68], 1),
       some ([65], 1), some ([66], 1), none, some ([40], 1)], 6⟩

def c6d7 : GraphemeDict :=
  ⟨16, [some ([69], 1), none, some ([67], 1), some ([68], 1), none,
        some ([66], 1), none, some ([40, 42], 2), none, none, none, none,
        some ([65], 1), none, none, none], 6⟩

/-- Contiguity of a list of emitted segments (source offset, byte count,
color): starting from offset a the segments tile an initial interval,
whose end offset is returned. -/
def tileEnd : ℕ → List (ℕ × ℕ × ℕ) → Option ℕ
  | e, [] => some e
  | e, (o, n, _) :: rest => if o = e then tileEnd (e + n) rest else none

/-- Loop of linedit_syntaxcolorstring over memory mem starting at the
buffer (length bytes, NUL-terminated; the loop reads beyond the
terminator when a token points past it).  The tokenizer returns a token
type, start offset and byte length, or none on failure.  Emitted
segments are (offset, bytes, color) with 8 the default color.  Returns
the emitted segments, the updated lexwarning flag, and whether the
stall warning was printed during this call. -/
def syntaxcolorLoop (tokenizer : ℕ → Option (ℤ × ℕ × ℕ)) (colorfn : ℤ → ℕ)
    (mem : ℕ → ℕ) (length : ℕ) :
    ℕ → ℕ → Bool → List (ℕ × ℕ × ℕ) → ℕ → List (ℕ × ℕ × ℕ) × Bool × Bool
  | _c, _iter, lexw, out, 0 => (out, lexw, false)
  | c, iter, lexw, out, fuel + 1 =>
    if mem c = 0 then (out, lexw, false)
    else
      match tokenizer c with
      | some (ty, st, len) =>
        if 0 < len ∧ c ≤ st then
          let out1 := if c < st then out ++ [(c, st - c, 8)] else out
          let out2 := out1 ++ [(st, len, colorfn ty)]
          if length < iter + 1 then
            if lexw = false then (out2, true, true) else (out2, lexw, false)
          else syntaxcolorLoop tokenizer colorfn mem length (st + len) (iter + 1)
            lexw out2 fuel
        else (out ++ [(c, length - c, 8)], lexw, false)
      | none => (out ++ [(c, length - c, 8)], lexw, false)

/-- Embedding of linedit_syntaxcolorstring, with the one-shot lexwarning
flag passed in and returned; each successful nonempty token advances the
scan by at least one byte, so length + 2 rounds of fuel cover every run
of the C loop. -/
def linedit_syntaxcolorstring (tokenizer : ℕ → Option (ℤ × ℕ × ℕ))
    (colorfn : ℤ → ℕ) (mem : ℕ → ℕ) (length : ℕ) (lexw : Bool) :
    List (ℕ × ℕ × ℕ) × Bool × Bool :=
  syntaxcolorLoop tokenizer colorfn mem length 0 0 lexw [] (length + 2)

/-- A tokenizer that always claims a two-byte token at the scan point,
stalling the colorer. -/
def c8tok : ℕ → Option (ℤ × ℕ × ℕ) := fun c => some (0, c, 2)

/-- Memory holding the one-byte buffer "a" with its NUL terminator and
nonzero garbage beyond it. -/
def c8mem : ℕ → ℕ := fun i => if i = 1 then 0 else 97

/-- iscntrl for byte values as used on the decoded keypress byte. -/
def iscntrl (b : ℕ) : Bool := b < 32 || b = 127

/-- isdigit for byte values. -/
def isdigit (b : ℕ) : Bool := 48 ≤ b && b ≤ 57

/-- isalpha for byte values. -/
def isalpha (b : ℕ) : Bool := (65 ≤ b && b ≤ 90) || (97 ≤ b && b ≤ 122)

/-- Escape-sequence read loop of linedit_readkey: reads up to
LINEDIT_CODESTRINGSIZE bytes, stopping after the first alphabetic byte;
at the end of the stream read returns 0 and the loop leaves the
remaining seq bytes unset, so only the bytes actually read are
collected. -/
def escCollect : ℕ → List ℕ → List ℕ × List ℕ
  | 0, rest => ([], rest)
  | _ + 1, [] => ([], [])
  | fuel + 1, b :: rest =>
    if isalpha b then ([b], rest)
    else
      let r := escCollect fuel rest
      (b :: r.1, r.2)

/-- Decoding of a collected escape sequence by linedit_readkey.  When
fewer than two bytes were read the C code tests uninitialized seq bytes;
the model returns UNKNOWN for that case. -/
def escDecode : List ℕ → Key
  | b0 :: b1 :: rest =>
    if b0 = 91 then
      if isdigit b1 then
        if b0 :: b1 :: rest = [91, 49, 59, 50, 67] then Key.sright
        else if b0 :: b1 :: rest = [91, 49, 59, 50, 68] then Key.sleft
        else Key.unknown
      else if b1 = 65 then Key.up
      else if b1 = 66 then Key.down
      else if b1 = 67 then Key.right
      else if b1 = 68 then Key.left
      else Key.unknown
    else Key.unknown
  | _ => Key.unknown

/-- Embedding of linedit_readkey over a byte stream: decode one keypress
and return it with the unconsumed remainder of the stream; none models a
failed first read.  Missing continuation bytes of a UTF-8 character stay
0 from linedit_keypressinit. -/
def linedit_readkey (input : List ℕ) : Option (Key × List ℕ) :=
  match input with
  | [] => none
  | b :: rest =>
    if iscntrl b then
      if b = 27 then
        let r := escCollect 24 rest
        some (escDecode r.1, r.2)
      else if b = 9 then some (Key.tab, rest)
      else if b = 127 then some (Key.del, rest)
      else if b = 13 then some (Key.ret, rest)
      else if 0 < b ∧ b < 27 then some (Key.ctrl (b + 65 - 1), rest)
      else some (Key.unknown, rest)
    else
      let n := linedit_utf8numberofbytes b
      some (Key.char ((b :: (rest.take (n - 1) ++
              List.replicate (n - 1 - rest.length) 0)).take n),
            rest.drop (n - 1))

/-- A completion callback offering the two suggestions "x" and "y",
used to exhibit the suggestion-list side effect of Ctrl-C. -/
def cfgXY : EditConfig := ⟨some (fun _ => [[120], [121]]), none, none⟩

/-- The editor state after typing 'a', pressing shift-right (entering
selection mode) and pressing down (advancing the suggestion cursor). -/
def c10trace : EditState :=
  (linedit_processkeypress cfgXY
    (linedit_processkeypress cfgXY
      (linedit_processkeypress cfgXY initState (Key.char [97])).1
      Key.sright).1 Key.down).1

/-- A concrete state in selection mode with buffer "ab", anchor 0 and
cursor 1, used to instantiate the amended C10. -/
def c10state : EditState :=
  ⟨Mode.selection, 1, 0, ⟨true, [97, 98]⟩, ⟨false, []⟩, [], 0, [], 0⟩

theorem Utf8Char.ne_nil {c : List ℕ} (h : Utf8Char c) : c ≠ [] := h.1

theorem Utf8Char.length_pos {c : List ℕ} (h : Utf8Char c) : 0 < c.length :=
  List.length_pos.mpr h.1

theorem Utf8Char.head_pos {c : List ℕ} (h : Utf8Char c) : 0 < c.headI := by
  have := h.2.1 c.headI (by cases c with
    | nil => exact absurd rfl h.1
    | cons a l => simp [List.headI])
  exact this.1

theorem Utf8Char.head_nob {c : List ℕ} (h : Utf8Char c) :
    linedit_utf8numberofbytes c.headI = c.length := h.2.2.1

theorem Utf8Chars.cons {c : List ℕ} {cs : List (List ℕ)}
    (h : Utf8Chars (c :: cs)) : Utf8Char c ∧ Utf8Chars cs := by
  constructor
  · exact h c (List.mem_cons_self _ _)
  · intro d hd; exact h d (List.mem_cons_of_mem _ hd)

theorem btake_zero (cs : List (List ℕ)) : btake cs 0 = 0 := by cases cs <;> rfl

theorem btake_cons (c : List ℕ) (cs : List (List ℕ)) (k : ℕ) :
    btake (c :: cs) (k + 1) = c.length + btake cs k := rfl

theorem btake_nil (k : ℕ) : btake [] k = 0 := by cases k <;> rfl

theorem btake_succ {cs : List (List ℕ)} {k : ℕ} (hk : k < cs.length) :
    btake cs (k + 1) = btake cs k + cs[k].length := by
  induction cs generalizing k with
  | nil => simp at hk
  | cons c rest ih =>
    cases k with
    | zero => simp [btake_cons, btake_zero]
    | succ k =>
      have hk' : k < rest.length := by simpa using hk
      rw [btake_cons, btake_cons, ih hk']
      simp
      omega

theorem btake_of_ge {cs : List (List ℕ)} {k : ℕ} (hk : cs.length ≤ k) :
    btake cs k = cs.flatten.length := by
  induction cs generalizing k with
  | nil => simp [btake_nil]
  | cons c rest ih =>
    cases k with
    | zero => simp at hk
    | succ k =>
      have hk' : rest.length ≤ k := by simpa using hk
      rw [btake_cons, ih hk']
      simp

theorem btake_le_flatten (cs : List (List ℕ)) (k : ℕ) :
    btake cs k ≤ cs.flatten.length := by
  induction cs generalizing k with
  | nil => simp [btake_nil]
  | cons c rest ih =>
    cases k with
    | zero => simp [btake_zero]
    | succ k =>
      rw [btake_cons]
      have := ih k
      simp only [List.flatten_cons, List.length_append]
      omega

theorem btake_mono {cs : List (List ℕ)} {j k : ℕ} (h : j ≤ k) :
    btake cs j ≤ btake cs k := by
  induction cs generalizing j k with
  | nil => simp [btake_nil]
  | cons c rest ih =>
    cases j with
    | zero => simp [btake_zero]
    | succ j =>
      cases k with
      | zero => omega
      | succ k =>
        rw [btake_cons, btake_cons]
        have := ih (Nat.succ_le_succ_iff.mp h)
        omega

/-- A byte at a character boundary is the head of the next character. -/
theorem byteAt_btake {cs : List (List ℕ)} (h : Utf8Chars cs) {k : ℕ}
    (hk : k < cs.length) :
    byteAt cs.flatten (btake cs k) = cs[k].headI := by
  induction cs generalizing k with
  | nil => simp at hk
  | cons c rest ih =>
    obtain ⟨hc, hrest⟩ := h.cons
    cases k with
    | zero =>
      simp only [btake_zero, List.flatten_cons]
      cases c with
      | nil => exact absurd rfl hc.1
      | cons a l => simp [byteAt, List.headI]
    | succ k =>
      rw [btake_cons]
      simp only [List.flatten_cons]
      have hk' : k < rest.length := by simpa using hk
      have := ih hrest hk'
      unfold byteAt at this ⊢
      rw [List.getElem?_append_right (by omega)]
      simpa using this

theorem btake_lt_of_lt {cs : List (List ℕ)} (h : Utf8Chars cs) {k : ℕ}
    (hk : k < cs.length) : btake cs k < cs.flatten.length := by
  have hchar : Utf8Char cs[k] := h _ (cs.getElem_mem hk)
  have h1 : btake cs (k + 1) ≤ cs.flatten.length := btake_le_flatten cs (k + 1)
  have h2 := btake_succ hk
  have := hchar.length_pos
  omega

theorem length_le_flatten_length {cs : List (List ℕ)} (h : Utf8Chars cs) :
    cs.length ≤ cs.flatten.length := by
  induction cs with
  | nil => simp
  | cons c rest ih =>
    obtain ⟨hc, hrest⟩ := h.cons
    have := hc.length_pos
    have := ih hrest
    simp only [List.flatten_cons, List.length_append, List.length_cons]
    omega

theorem btake_strict_mono {cs : List (List ℕ)} (h : Utf8Chars cs) {j k : ℕ}
    (hjk : j < k) (hk : k ≤ cs.length) : btake cs j < btake cs k := by
  have hj : j < cs.length := lt_of_lt_of_le hjk hk
  have hchar : Utf8Char cs[j] := h _ (cs.getElem_mem hj)
  have h1 := btake_succ hj
  have h2 : btake cs (j + 1) ≤ btake cs k := btake_mono hjk
  have := hchar.length_pos
  omega

/-- Reading inside character k of the buffer reads inside that character. -/
theorem byteAt_btake_add {cs : List (List ℕ)} {k : ℕ} (hk : k < cs.length)
    {d : ℕ} (hd : d < cs[k].length) :
    byteAt cs.flatten (btake cs k + d) = byteAt cs[k] d := by
  induction cs generalizing k with
  | nil => simp at hk
  | cons c rest ih =>
    cases k with
    | zero =>
      simp only [btake_zero, List.flatten_cons, Nat.zero_add]
      unfold byteAt
      rw [List.getElem?_append_left (by simpa using hd)]
      simp
    | succ k =>
      rw [btake_cons]
      simp only [List.flatten_cons]
      have hk' : k < rest.length := by simpa using hk
      have hd' : d < rest[k].length := by simpa using hd
      have := ih hk' hd'
      unfold byteAt at this ⊢
      rw [List.getElem?_append_right (by omega)]
      have heq : c.length + btake rest k + d - c.length = btake rest k + d := by omega
      rw [heq]
      simpa using this

/-- A byte strictly inside a character is a continuation byte. -/
theorem interior_is_continuation {c : List ℕ} (hc : Utf8Char c) {d : ℕ}
    (hd0 : 0 < d) (hd : d < c.length) :
    linedit_utf8numberofbytes (byteAt c d) = 0 := by
  cases c with
  | nil => simp at hd
  | cons a l =>
    cases d with
    | zero => omega
    | succ d =>
      have hd' : d < l.length := by simpa using hd
      have : byteAt (a :: l) (d + 1) = l[d] := by
        unfold byteAt; simp [List.getElem?_eq_getElem hd']
      rw [this]
      exact hc.2.2.2 l[d] (l.getElem_mem hd')

theorem flatten_drop_btake (cs : List (List ℕ)) (k : ℕ) :
    cs.flatten.drop (btake cs k) = (cs.drop k).flatten := by
  induction cs generalizing k with
  | nil => simp [btake_nil]
  | cons c rest ih =>
    cases k with
    | zero => simp [btake_zero]
    | succ k =>
      rw [btake_cons]
      simp only [List.flatten_cons, List.drop_succ_cons]
      rw [List.drop_append]
      exact ih k

/-!  Master lemma for the character-index loop. -/
theorem utf8indexLoop_boundary {cs : List (List ℕ)} (h : Utf8Chars cs)
    {i : ℕ} : ∀ {fuel k : ℕ}, k ≤ cs.length → cs.length - k + 2 ≤ fuel →
    utf8indexLoop cs.flatten i 0 (btake cs k) k fuel =
      if k ≤ i ∧ i ≤ cs.length then some (btake cs i) else none := by
  intro fuel
  induction fuel with
  | zero => intro k hk hfuel; omega
  | succ fuel ih =>
    intro k hk hfuel
    unfold utf8indexLoop
    rw [if_pos (by simpa using btake_le_flatten cs k)]
    by_cases hki : k = i
    · subst hki
      rw [if_pos rfl, if_pos ⟨le_refl _, hk⟩]
    · rw [if_neg hki]
      rcases Nat.lt_or_ge k cs.length with hlt | hge
      · have hb : byteAt cs.flatten (0 + btake cs k) = cs[k].headI := by
          rw [Nat.zero_add]; exact byteAt_btake h hlt
        have hchar : Utf8Char cs[k] := h _ (cs.getElem_mem hlt)
        have hpos := hchar.length_pos
        rw [hb, hchar.head_nob, if_neg (by omega)]
        have hstep : btake cs k + cs[k].length = btake cs (k + 1) :=
          (btake_succ hlt).symm
        rw [hstep, ih (by omega) (by omega)]
        by_cases hi : k + 1 ≤ i ∧ i ≤ cs.length
        · rw [if_pos hi, if_pos ⟨by omega, hi.2⟩]
        · rw [if_neg hi, if_neg (by omega)]
      · have hkl : k = cs.length := le_antisymm hk hge
        subst hkl
        have hb : byteAt cs.flatten (0 + btake cs cs.length) = 0 := by
          rw [Nat.zero_add, btake_of_ge (le_refl _)]
          unfold byteAt
          rw [List.getElem?_eq_none (le_refl _)]
          rfl
        rw [hb]
        have : linedit_utf8numberofbytes 0 = 1 := by decide
        rw [this, if_neg (by omega)]
        have hover : ¬ (btake cs cs.length + 1 + 0 ≤ cs.flatten.length) := by
          rw [btake_of_ge (le_refl _)]; omega
        cases fuel with
        | zero => rw [if_neg (by omega)]; rfl
        | succ fuel =>
          unfold utf8indexLoop
          rw [if_neg hover, if_neg (by omega)]

/-- Embedded linedit_stringutf8index on a valid buffer: the byte offset
of character i, defined exactly for i up to the character count. -/
theorem stringutf8index_eq {cs : List (List ℕ)} (h : Utf8Chars cs) (i : ℕ) :
    linedit_stringutf8index cs.flatten i 0 =
      if i ≤ cs.length then some (btake cs i) else none := by
  unfold linedit_stringutf8index
  have hm := @utf8indexLoop_boundary cs h i (cs.flatten.length + 2) 0
    (Nat.zero_le _)
    (by have := length_le_flatten_length h; omega)
  rw [btake_zero] at hm
  rw [hm]
  simp

theorem Utf8Chars.append {a b : List (List ℕ)} (ha : Utf8Chars a)
    (hb : Utf8Chars b) : Utf8Chars (a ++ b) := by
  intro c hc
  rcases List.mem_append.mp hc with h | h
  · exact ha c h
  · exact hb c h

theorem Utf8Chars.take {cs : List (List ℕ)} (h : Utf8Chars cs) (k : ℕ) :
    Utf8Chars (cs.take k) := fun c hc => h c (List.take_subset _ _ hc)

theorem Utf8Chars.drop {cs : List (List ℕ)} (h : Utf8Chars cs) (k : ℕ) :
    Utf8Chars (cs.drop k) := fun c hc => h c (List.drop_subset _ _ hc)

theorem flatten_take_btake (cs : List (List ℕ)) (k : ℕ) :
    cs.flatten.take (btake cs k) = (cs.take k).flatten := by
  induction cs generalizing k with
  | nil => simp [btake_nil]
  | cons c rest ih =>
    cases k with
    | zero => simp [btake_zero]
    | succ k =>
      rw [btake_cons]
      simp only [List.flatten_cons, List.take_succ_cons]
      rw [List.take_append, ih k]

theorem btake_add {cs : List (List ℕ)} {l : ℕ} (hl : l ≤ cs.length) (n : ℕ) :
    btake cs (l + n) = btake cs l + btake (cs.drop l) n := by
  induction cs generalizing l with
  | nil => simp [btake_nil]
  | cons c rest ih =>
    cases l with
    | zero => simp [btake_zero]
    | succ l =>
      have hl' : l ≤ rest.length := by simpa using hl
      rw [Nat.succ_add, btake_cons, btake_cons, ih hl']
      simp [Nat.add_assoc]

theorem flatten_no_zero {cs : List (List ℕ)} (h : Utf8Chars cs) :
    ∀ b ∈ cs.flatten, b ≠ 0 := by
  intro b hb
  obtain ⟨c, hc, hbc⟩ := List.mem_flatten.mp hb
  have := (h c hc).2.1 b hbc
  omega

theorem cstrTrunc_eq_self {l : List ℕ} (h : ∀ b ∈ l, b ≠ 0) :
    cstrTrunc l = l := by
  unfold cstrTrunc
  apply List.takeWhile_eq_self_iff.mpr
  intro x hx
  simp [h x hx]

/-- Shifting the index loop to a suffix: the C loop only looks at bytes
from the offset onwards. -/
theorem utf8indexLoop_shift (s : List ℕ) {offset : ℕ} (hoff : offset ≤ s.length)
    (i : ℕ) : ∀ (fuel j n : ℕ),
    utf8indexLoop s i offset j n fuel = utf8indexLoop (s.drop offset) i 0 j n fuel := by
  intro fuel
  induction fuel with
  | zero => intro j n; rfl
  | succ fuel ih =>
    intro j n
    unfold utf8indexLoop
    have hlen : (s.drop offset).length = s.length - offset := by simp
    have hguard : (j + offset ≤ s.length) ↔ (j + 0 ≤ (s.drop offset).length) := by
      rw [hlen]; omega
    have hbyte : byteAt s (offset + j) = byteAt (s.drop offset) (0 + j) := by
      unfold byteAt
      rw [Nat.zero_add, List.getElem?_drop]
    by_cases hg : j + offset ≤ s.length
    · rw [if_pos hg, if_pos (hguard.mp hg)]
      by_cases hn : n = i
      · simp only [if_pos hn]
      · rw [if_neg hn, if_neg hn, hbyte]
        by_cases ha : linedit_utf8numberofbytes (byteAt (s.drop offset) (0 + j)) = 0
        · rw [if_pos ha, if_pos ha]
        · rw [if_neg ha, if_neg ha, ih]
    · rw [if_neg hg, if_neg (fun hc => hg (hguard.mpr hc))]

/-- Embedded linedit_stringutf8index counting n characters from a
character boundary of a valid buffer. -/
theorem stringutf8index_offset_eq {cs : List (List ℕ)} (h : Utf8Chars cs)
    {k : ℕ} (_hk : k ≤ cs.length) (n : ℕ) :
    linedit_stringutf8index cs.flatten n (btake cs k) =
      if n ≤ cs.length - k then some (btake (cs.drop k) n) else none := by
  unfold linedit_stringutf8index
  rw [utf8indexLoop_shift _ (btake_le_flatten cs k), flatten_drop_btake]
  have hdrop : Utf8Chars (cs.drop k) := h.drop k
  have hm := @utf8indexLoop_boundary (cs.drop k) hdrop n
    (cs.flatten.length + 2) 0 (Nat.zero_le _)
    (by
      have h1 := length_le_flatten_length hdrop
      have h2 : (cs.drop k).flatten.length ≤ cs.flatten.length := by
        rw [← flatten_drop_btake]; simp
      omega)
  rw [btake_zero] at hm
  rw [hm]
  have : (cs.drop k).length = cs.length - k := by simp
  rw [this]
  simp

/-!  Master lemma for the character-count loop. -/
theorem utf8countLoop_boundary_exact {cs : List (List ℕ)} (h : Utf8Chars cs)
    {start len m0 : ℕ} (hm0 : m0 ≤ cs.length)
    (hlt : ∀ m, m < m0 → btake cs m < start + len)
    (hge : m0 < cs.length → start + len ≤ btake cs m0) :
    ∀ {fuel j n : ℕ}, j ≤ m0 → m0 - j + 1 ≤ fuel →
    utf8countLoop cs.flatten start len (btake cs j) n fuel = some (n + (m0 - j)) := by
  intro fuel
  induction fuel with
  | zero => intro j n hj hfuel; omega
  | succ fuel ih =>
    intro j n hj hfuel
    unfold utf8countLoop
    by_cases hjm : j = m0
    · subst hjm
      rcases Nat.lt_or_ge j cs.length with hlt2 | hge2
      · rw [if_neg (by
          intro hcon
          exact absurd hcon.1 (not_lt.mpr (hge hlt2)))]
        simp
      · have hjl : j = cs.length := le_antisymm hm0 hge2
        rw [if_neg (by
          intro hcon
          apply hcon.2
          rw [hjl, btake_of_ge (le_refl _)]
          unfold byteAt
          rw [List.getElem?_eq_none (le_refl _)]
          rfl)]
        simp
    · have hjlt : j < m0 := lt_of_le_of_ne hj hjm
      have hjcs : j < cs.length := lt_of_lt_of_le hjlt hm0
      have hchar : Utf8Char cs[j] := h _ (cs.getElem_mem hjcs)
      rw [if_pos ⟨hlt j hjlt, by
        rw [byteAt_btake h hjcs]
        have := hchar.head_pos
        omega⟩]
      rw [byteAt_btake h hjcs, hchar.head_nob,
        if_neg (by have := hchar.length_pos; omega)]
      have hstep : btake cs j + cs[j].length = btake cs (j + 1) :=
        (btake_succ hjcs).symm
      rw [hstep, ih (by omega) (by omega)]
      congr 1
      omega

/-- Embedded linedit_utf8count over the whole of a valid buffer returns
the number of characters of the decomposition. -/
theorem utf8count_full {cs : List (List ℕ)} (h : Utf8Chars cs) :
    linedit_utf8count cs.flatten 0 cs.flatten.length = some cs.length := by
  unfold linedit_utf8count
  have hm := @utf8countLoop_boundary_exact cs h 0 cs.flatten.length
    cs.length (le_refl _)
    (fun m hm => by simpa using btake_lt_of_lt h hm)
    (fun hc => absurd hc (lt_irrefl _))
    (cs.flatten.length + 1) 0 0 (Nat.zero_le _)
    (by have := length_le_flatten_length h; omega)
  rw [btake_zero] at hm
  simpa using hm

/-- Embedded linedit_stringlength of a valid buffer is the character
count. -/
theorem stringlength_eq {cs : List (List ℕ)} (h : Utf8Chars cs) (al : Bool) :
    linedit_stringlength ⟨al, cs.flatten⟩ = cs.length := by
  unfold linedit_stringlength
  simp only [utf8count_full h]
  rfl

/-!  Characterizations of insert and delete on valid buffers. -/
theorem stringinsert_middle {cs : List (List ℕ)} (h : Utf8Chars cs)
    {p : ℕ} (hp : p < cs.length) (d : List ℕ) (al : Bool) :
    linedit_stringinsert ⟨al, cs.flatten⟩ p d =
      ⟨al, (cs.take p).flatten ++ d ++ (cs.drop p).flatten⟩ := by
  unfold linedit_stringinsert
  rw [stringutf8index_eq h p, if_pos (le_of_lt hp)]
  simp only
  rw [if_pos (btake_lt_of_lt h hp), flatten_take_btake, flatten_drop_btake]

theorem stringinsert_end {cs : List (List ℕ)} (h : Utf8Chars cs)
    (d : List ℕ) (al : Bool) :
    linedit_stringinsert ⟨al, cs.flatten⟩ cs.length d =
      ⟨true, cs.flatten ++ d⟩ := by
  unfold linedit_stringinsert
  rw [stringutf8index_eq h cs.length, if_pos (le_refl _)]
  simp only
  rw [if_neg (by rw [btake_of_ge (le_refl _)]; omega)]
  rfl

theorem stringinsert_past_end {cs : List (List ℕ)} (h : Utf8Chars cs)
    {p : ℕ} (hp : cs.length < p) (d : List ℕ) (al : Bool) :
    linedit_stringinsert ⟨al, cs.flatten⟩ p d = ⟨al, cs.flatten⟩ := by
  unfold linedit_stringinsert
  rw [stringutf8index_eq h p, if_neg (by omega)]

theorem stringdelete_eq {cs : List (List ℕ)} (h : Utf8Chars cs)
    {l n : ℕ} (hln : l + n ≤ cs.length) (al : Bool) :
    linedit_stringdelete ⟨al, cs.flatten⟩ l n =
      ⟨al, (cs.take l ++ cs.drop (l + n)).flatten⟩ := by
  have hl : l ≤ cs.length := by omega
  have hcount : n ≤ cs.length - l := by omega
  unfold linedit_stringdelete
  simp only
  rw [if_neg (by
    have h1 := length_le_flatten_length h
    omega)]
  simp only [stringutf8index_eq h l, if_pos hl,
    stringutf8index_offset_eq h hl n, if_pos hcount]
  have hnb : btake cs l + btake (cs.drop l) n = btake cs (l + n) :=
    (btake_add hl n).symm
  rcases Nat.lt_or_ge l cs.length with hllt | hlge
  · rw [if_pos (btake_lt_of_lt h hllt)]
    rcases Nat.lt_or_ge (l + n) cs.length with hlnlt | hlnge
    · rw [if_pos (by rw [hnb]; exact btake_lt_of_lt h hlnlt)]
      rw [hnb, flatten_take_btake, flatten_drop_btake]
      rw [cstrTrunc_eq_self (by
        intro b hb
        apply flatten_no_zero ((h.take l).append (h.drop (l + n))) b
        rw [List.flatten_append]
        exact hb)]
      rw [List.flatten_append]
    · have hlneq : l + n = cs.length := le_antisymm hln hlnge
      rw [if_neg (by rw [hnb, hlneq, btake_of_ge (le_refl _)]; omega)]
      rw [flatten_take_btake]
      rw [cstrTrunc_eq_self (fun b hb => flatten_no_zero (h.take l) b hb)]
      rw [hlneq]
      simp
  · have hleq : l = cs.length := le_antisymm hl hlge
    have hn0 : n = 0 := by omega
    rw [if_neg (by rw [hleq, btake_of_ge (le_refl _)]; omega)]
    subst hleq hn0
    simp

theorem stringdelete_noop {cs : List (List ℕ)} (h : Utf8Chars cs)
    {l n : ℕ} (hln : cs.length < l + n) (al : Bool) :
    linedit_stringdelete ⟨al, cs.flatten⟩ l n = ⟨al, cs.flatten⟩ := by
  unfold linedit_stringdelete
  simp only
  by_cases hbyte : cs.flatten.length < n
  · rw [if_pos hbyte]
  · rw [if_neg hbyte]
    rcases Nat.lt_or_ge cs.length l with hllt | hlge
    · rw [stringutf8index_eq h l, if_neg (by omega)]
    · simp only [stringutf8index_eq h l, if_pos hlge,
        stringutf8index_offset_eq h hlge n, if_neg (show ¬ n ≤ cs.length - l by omega)]

theorem drop_eq_cons_of_lt {cs : List (List ℕ)} {k : ℕ} (hk : k < cs.length) :
    cs.drop k = cs[k] :: cs.drop (k + 1) :=
  List.drop_eq_getElem_cons hk

/-- The byte-level coordinate walk agrees with the character-level walk
on valid buffers. -/
theorem coordLoop_eq_cwalk {cs : List (List ℕ)} (h : Utf8Chars cs) (posn : ℤ) :
    ∀ {fuel k : ℕ} (x y : ℤ), k ≤ cs.length → cs.length - k + 1 ≤ fuel →
    coordLoop cs.flatten posn (btake cs k) x y k fuel =
      coordCWalk (cs.drop k) posn k x y := by
  intro fuel
  induction fuel with
  | zero => intro k x y hk hfuel; omega
  | succ fuel ih =>
    intro k x y hk hfuel
    unfold coordLoop
    rcases Nat.lt_or_ge k cs.length with hlt | hge
    · rw [if_pos (btake_lt_of_lt h hlt)]
      rw [drop_eq_cons_of_lt hlt]
      unfold coordCWalk
      by_cases hn : (k : ℤ) = posn
      · rw [if_pos hn, if_pos hn]
      · rw [if_neg hn, if_neg hn]
        have hchar : Utf8Char cs[k] := h _ (cs.getElem_mem hlt)
        have hb := byteAt_btake h hlt
        simp only [hb, hchar.head_nob]
        rw [if_neg (by have := hchar.length_pos; omega)]
        have hstep : btake cs k + cs[k].length = btake cs (k + 1) :=
          (btake_succ hlt).symm
        rw [hstep]
        by_cases hc : cs[k].headI = 10
        · simp only [if_pos hc]
          exact ih 0 (y + 1) (by omega) (by omega)
        · simp only [if_neg hc]
          exact ih (x + 1) y (by omega) (by omega)
    · have hkl : k = cs.length := le_antisymm hk hge
      subst hkl
      rw [if_neg (by rw [btake_of_ge (le_refl _)]; omega)]
      rw [List.drop_of_length_le (le_refl _)]
      rfl

/-- The byte-level position-finding walk agrees with the character-level
walk on valid buffers. -/
theorem findLoop_eq_cwalk {cs : List (List ℕ)} (h : Utf8Chars cs) (x y : ℤ) :
    ∀ {fuel k : ℕ} (xx yy : ℤ), k ≤ cs.length → cs.length - k + 1 ≤ fuel →
    findLoop cs.flatten x y (btake cs k) xx yy k fuel =
      findCWalk (cs.drop k) x y k xx yy := by
  intro fuel
  induction fuel with
  | zero => intro k xx yy hk hfuel; omega
  | succ fuel ih =>
    intro k xx yy hk hfuel
    unfold findLoop
    rcases Nat.lt_or_ge k cs.length with hlt | hge
    · rw [if_pos (btake_lt_of_lt h hlt)]
      rw [drop_eq_cons_of_lt hlt]
      unfold findCWalk
      by_cases hxy : xx = x ∧ yy = y
      · rw [if_pos hxy, if_pos hxy]
      · rw [if_neg hxy, if_neg hxy]
        have hchar : Utf8Char cs[k] := h _ (cs.getElem_mem hlt)
        have hb := byteAt_btake h hlt
        simp only [hb, hchar.head_nob]
        have hstep : btake cs k + cs[k].length = btake cs (k + 1) :=
          (btake_succ hlt).symm
        by_cases hc : cs[k].headI = 10
        · simp only [if_pos hc]
          by_cases hyy : yy + 1 > y
          · rw [if_pos hyy, if_pos hyy]
          · rw [if_neg hyy, if_neg hyy,
              if_neg (by have := hchar.length_pos; omega), hstep]
            exact ih 0 (yy + 1) (by omega) (by omega)
        · simp only [if_neg hc]
          rw [if_neg (by have := hchar.length_pos; omega), hstep]
          exact ih (xx + 1) yy (by omega) (by omega)
    · have hkl : k = cs.length := le_antisymm hk hge
      subst hkl
      rw [if_neg (by rw [btake_of_ge (le_refl _)]; omega)]
      rw [List.drop_of_length_le (le_refl _)]
      rfl

/-- The character-level find walk advances by at most the number of
characters. -/
theorem findCWalk_le (cs : List (List ℕ)) (x y : ℤ) :
    ∀ (n : ℕ) (xx yy : ℤ), findCWalk cs x y n xx yy ≤ n + cs.length := by
  induction cs with
  | nil => intro n xx yy; simp [findCWalk]
  | cons c rest ih =>
    intro n xx yy
    unfold findCWalk
    by_cases hxy : xx = x ∧ yy = y
    · rw [if_pos hxy]; simp
    · rw [if_neg hxy]
      by_cases hc : c.headI = 10
      · rw [if_pos hc]
        by_cases hyy : yy + 1 > y
        · rw [if_pos hyy]; simp
        · rw [if_neg hyy]
          have := ih (n + 1) 0 (yy + 1)
          simp only [List.length_cons]
          omega
      · rw [if_neg hc]
        have := ih (n + 1) (xx + 1) yy
        simp only [List.length_cons]
        omega

/-- Embedded linedit_stringfindposition never exceeds the character
count of a valid buffer. -/
theorem stringfindposition_le {cs : List (List ℕ)} (h : Utf8Chars cs)
    (x y : ℤ) : linedit_stringfindposition cs.flatten x y ≤ cs.length := by
  unfold linedit_stringfindposition
  have hm := @findLoop_eq_cwalk cs h x y (cs.flatten.length + 1) 0 0 0
    (Nat.zero_le _)
    (by have := length_le_flatten_length h; omega)
  rw [btake_zero] at hm
  rw [hm]
  simpa using findCWalk_le cs x y 0 0 0

theorem lexLt_of_lt_of_le {a b c : ℤ × ℤ} (h1 : lexLt a b) (h2 : lexLe b c) :
    lexLt a c := by
  unfold lexLt lexLe at *
  rcases h1 with h1 | ⟨h1a, h1b⟩ <;> rcases h2 with h2 | ⟨h2a, h2b⟩
  · exact Or.inl (by omega)
  · exact Or.inl (by omega)
  · exact Or.inl (by omega)
  · exact Or.inr ⟨by omega, by omega⟩

theorem lexLt.ne {a b : ℤ × ℤ} (h : lexLt a b) : a ≠ b := by
  intro hab
  subst hab
  unfold lexLt at h
  omega

/-- The coordinate walk never moves lexicographically backwards. -/
theorem coordCWalk_lexLe (cs : List (List ℕ)) (posn : ℤ) :
    ∀ (n : ℕ) (x y : ℤ), lexLe (x, y) (coordCWalk cs posn n x y) := by
  induction cs with
  | nil => intro n x y; unfold coordCWalk lexLe; simp
  | cons c rest ih =>
    intro n x y
    unfold coordCWalk
    by_cases hn : (n : ℤ) = posn
    · rw [if_pos hn]; unfold lexLe; simp
    · rw [if_neg hn]
      by_cases hc : c.headI = 10
      · rw [if_pos hc]
        have h1 := ih (n + 1) 0 (y + 1)
        have h2 : lexLt (x, y) ((0 : ℤ), y + 1) := Or.inl (by simp)
        have h3 := lexLt_of_lt_of_le h2 h1
        unfold lexLt at h3
        unfold lexLe
        rcases h3 with h3 | h3
        · exact Or.inl h3
        · exact Or.inr ⟨h3.1, le_of_lt h3.2⟩
      · rw [if_neg hc]
        have h1 := ih (n + 1) (x + 1) y
        unfold lexLe at h1 ⊢
        rcases h1 with h1 | h1
        · exact Or.inl h1
        · exact Or.inr ⟨h1.1, by omega⟩

theorem lexLe_snd {a b : ℤ × ℤ} (h : lexLe a b) : a.2 ≤ b.2 := by
  unfold lexLe at h
  rcases h with h | h
  · exact le_of_lt h
  · exact le_of_eq h.1

theorem coordCWalk_self (cs : List (List ℕ)) (n : ℕ) (x y : ℤ) :
    coordCWalk cs (n : ℤ) n x y = (x, y) := by
  cases cs <;> simp [coordCWalk]

theorem findCWalk_self (cs : List (List ℕ)) (x y : ℤ) (n : ℕ) :
    findCWalk cs x y n x y = n := by
  cases cs <;> simp [findCWalk]

/-- The position-finding walk inverts the coordinate walk: walking to
the coordinates of character n + p from state (n, xx, yy) finds exactly
position n + p. -/
theorem findCWalk_coordCWalk (p : ℕ) :
    ∀ (cs : List (List ℕ)) (n : ℕ) (xx yy : ℤ), p ≤ cs.length →
    findCWalk cs (coordCWalk cs ((n + p : ℕ) : ℤ) n xx yy).1
      (coordCWalk cs ((n + p : ℕ) : ℤ) n xx yy).2 n xx yy = n + p := by
  induction p with
  | zero =>
    intro cs n xx yy _hp
    rw [Nat.add_zero, coordCWalk_self]
    exact findCWalk_self cs xx yy n
  | succ p ih =>
    intro cs n xx yy hp
    cases cs with
    | nil => simp at hp
    | cons c rest =>
      have hne : ¬ ((n : ℤ) = ((n + (p + 1) : ℕ) : ℤ)) := by push_cast; omega
      have hrest : p ≤ rest.length := by simpa using hp
      have hidx : n + (p + 1) = (n + 1) + p := by omega
      by_cases hc : c.headI = 10
      · have hcw : coordCWalk (c :: rest) ((n + (p + 1) : ℕ) : ℤ) n xx yy
            = coordCWalk rest (((n + 1) + p : ℕ) : ℤ) (n + 1) 0 (yy + 1) := by
          rw [coordCWalk, if_neg hne, if_pos hc, hidx]
        rw [hcw]
        have hlex : lexLe ((0 : ℤ), yy + 1)
            (coordCWalk rest (((n + 1) + p : ℕ) : ℤ) (n + 1) 0 (yy + 1)) :=
          coordCWalk_lexLe rest _ (n + 1) 0 (yy + 1)
        have hstrict : lexLt (xx, yy) ((0 : ℤ), yy + 1) := Or.inl (by simp)
        have hne2 := (lexLt_of_lt_of_le hstrict hlex).ne
        have hyle : yy + 1 ≤
            (coordCWalk rest (((n + 1) + p : ℕ) : ℤ) (n + 1) 0 (yy + 1)).2 := by
          simpa using lexLe_snd hlex
        unfold findCWalk
        rw [if_neg (by
          intro hcon
          apply hne2
          exact Prod.ext hcon.1 hcon.2)]
        rw [if_pos hc, if_neg (not_lt.mpr hyle)]
        rw [ih rest (n + 1) 0 (yy + 1) hrest]
        omega
      · have hcw : coordCWalk (c :: rest) ((n + (p + 1) : ℕ) : ℤ) n xx yy
            = coordCWalk rest (((n + 1) + p : ℕ) : ℤ) (n + 1) (xx + 1) yy := by
          rw [coordCWalk, if_neg hne, if_neg hc, hidx]
        rw [hcw]
        have hlex : lexLe (xx + 1, yy)
            (coordCWalk rest (((n + 1) + p : ℕ) : ℤ) (n + 1) (xx + 1) yy) :=
          coordCWalk_lexLe rest _ (n + 1) (xx + 1) yy
        have hstrict : lexLt (xx, yy) (xx + 1, yy) := Or.inr ⟨rfl, by simp⟩
        have hne2 := (lexLt_of_lt_of_le hstrict hlex).ne
        unfold findCWalk
        rw [if_neg (by
          intro hcon
          apply hne2
          exact Prod.ext hcon.1 hcon.2)]
        rw [if_neg hc]
        rw [ih rest (n + 1) (xx + 1) yy hrest]
        omega

/-- Byte-level corollary: coordinates of a reachable position followed
by position-finding is the identity on a valid buffer. -/
theorem coordinates_findposition_round {cs : List (List ℕ)}
    (h : Utf8Chars cs) {p : ℕ} (hp : p ≤ cs.length) :
    linedit_stringfindposition cs.flatten
      (linedit_stringcoordinates cs.flatten (p : ℤ)).1
      (linedit_stringcoordinates cs.flatten (p : ℤ)).2 = p := by
  have hcoord : linedit_stringcoordinates cs.flatten (p : ℤ) =
      coordCWalk cs ((0 + p : ℕ) : ℤ) 0 0 0 := by
    unfold linedit_stringcoordinates
    have hm := @coordLoop_eq_cwalk cs h (p : ℤ) (cs.flatten.length + 1) 0
      0 0 (Nat.zero_le _)
      (by have := length_le_flatten_length h; omega)
    rw [btake_zero] at hm
    simpa using hm
  have hfind : ∀ x y : ℤ, linedit_stringfindposition cs.flatten x y =
      findCWalk cs x y 0 0 0 := by
    intro x y
    unfold linedit_stringfindposition
    have hm := @findLoop_eq_cwalk cs h x y (cs.flatten.length + 1) 0 0 0
      (Nat.zero_le _)
      (by have := length_le_flatten_length h; omega)
    rw [btake_zero] at hm
    simpa using hm
  rw [hcoord, hfind]
  have := findCWalk_coordCWalk p cs 0 0 0 hp
  simpa using this

theorem ValidBuf.nil : ValidBuf [] := ⟨[], fun _ h => absurd h (List.not_mem_nil _), rfl⟩

theorem ValidBuf.append_buf {a b : List ℕ} (ha : ValidBuf a) (hb : ValidBuf b) :
    ValidBuf (a ++ b) := by
  obtain ⟨cs, hcs, rfl⟩ := ha
  obtain ⟨ds, hds, rfl⟩ := hb
  exact ⟨cs ++ ds, hcs.append hds, (List.flatten_append cs ds).symm⟩

theorem Utf8Char.newline : Utf8Char [10] := by decide

theorem Utf8Char.tabchar : Utf8Char [9] := by decide

theorem Utf8Char.validBuf {c : List ℕ} (h : Utf8Char c) : ValidBuf c :=
  ⟨[c], fun d hd => by simpa [List.mem_singleton.mp hd] using h, by simp⟩

theorem sizeTOfInt_of_nonneg {z : ℤ} (h : 0 ≤ z) : sizeTOfInt z = z.toNat := by
  unfold sizeTOfInt
  rw [if_neg (by omega)]

/-- Explicit form of linedit_setmode as a record update. -/
theorem setmode_eq (s : EditState) (m : Mode) : linedit_setmode s m =
    { s with mode := m,
             sposn := (if m = Mode.selection then
                        (if s.sposn < 0 then s.posn else s.sposn) else -1),
             history := (if m ≠ Mode.history ∧ s.mode = Mode.history then
                          s.history.tail else s.history),
             hposn := (if m ≠ Mode.history then 0 else s.hposn) } := by
  unfold linedit_setmode
  dsimp only
  split_ifs <;> cases s <;> simp_all

/-- An entry returned by the list-selection loop is a list member. -/
theorem stringlistselectLoop_mem :
    ∀ (l : List (List ℕ)) (n i : ℕ) {g : List ℕ},
    (stringlistselectLoop l n i).1 = some g → g ∈ l := by
  intro l
  induction l with
  | nil => intro n i g h; simp [stringlistselectLoop] at h
  | cons a rest ih =>
    intro n i g h
    cases rest with
    | nil =>
      simp only [stringlistselectLoop] at h
      simp_all
    | cons b rest2 =>
      unfold stringlistselectLoop at h
      by_cases hin : i = n
      · rw [if_pos hin] at h
        simp_all
      · rw [if_neg hin] at h
        exact List.mem_cons_of_mem _ (ih n (i + 1) h)

theorem currentsuggestion_mem {s : EditState} {g : List ℕ}
    (h : linedit_currentsuggestion s = some g) : g ∈ s.suggestions :=
  stringlistselectLoop_mem _ _ _ h

theorem historyselect_cases (s : EditState) (n : ℕ) :
    (linedit_historyselect s n).1 = s ∨
    ∃ g ∈ s.history, (linedit_historyselect s n).1 = { s with current := ⟨true, g⟩ } := by
  unfold linedit_historyselect linedit_stringlistselect
  rcases hsel : stringlistselectLoop s.history n 0 with ⟨og, m⟩
  cases og with
  | none => left; rfl
  | some g =>
    right
    refine ⟨g, stringlistselectLoop_mem _ n 0 (by rw [hsel]), rfl⟩

/-- Counting from a character boundary always succeeds and advances to
some later boundary. -/
theorem utf8countLoop_boundary_le {cs : List (List ℕ)} (h : Utf8Chars cs)
    {start len : ℕ} : ∀ {fuel j n : ℕ}, j ≤ cs.length →
    cs.length - j + 1 ≤ fuel →
    ∃ m, j ≤ m ∧ m ≤ cs.length ∧
      utf8countLoop cs.flatten start len (btake cs j) n fuel = some (n + (m - j)) := by
  intro fuel
  induction fuel with
  | zero => intro j n hj hfuel; omega
  | succ fuel ih =>
    intro j n hj hfuel
    unfold utf8countLoop
    by_cases hguard : btake cs j < start + len ∧ byteAt cs.flatten (btake cs j) ≠ 0
    · have hjlt : j < cs.length := by
        rcases Nat.lt_or_ge j cs.length with hlt | hge
        · exact hlt
        · exfalso
          apply hguard.2
          have hje : j = cs.length := le_antisymm hj hge
          rw [hje, btake_of_ge (le_refl _)]
          unfold byteAt
          rw [List.getElem?_eq_none (le_refl _)]
          rfl
      have hchar : Utf8Char cs[j] := h _ (cs.getElem_mem hjlt)
      rw [if_pos hguard, byteAt_btake h hjlt, hchar.head_nob,
        if_neg (by have := hchar.length_pos; omega)]
      have hstep : btake cs j + cs[j].length = btake cs (j + 1) :=
        (btake_succ hjlt).symm
      rw [hstep]
      obtain ⟨m, hm1, hm2, hm3⟩ := ih (j := j + 1) (n := n + 1) (by omega) (by omega)
      exact ⟨m, by omega, hm2, by rw [hm3]; congr 1; omega⟩
    · rw [if_neg hguard]
      exact ⟨j, le_refl _, hj, by simp⟩

/-- Every byte position inside a valid buffer lies inside some
character. -/
theorem exists_char_containing {cs : List (List ℕ)} {pos : ℕ}
    (hpos : pos < cs.flatten.length) :
    ∃ k, k < cs.length ∧ btake cs k ≤ pos ∧ pos < btake cs (k + 1) := by
  induction cs generalizing pos with
  | nil => simp at hpos
  | cons c rest ih =>
    by_cases hc : pos < c.length
    · exact ⟨0, by simp, by simp [btake_zero], by simpa [btake_cons, btake_zero] using hc⟩
    · have hpos' : pos - c.length < rest.flatten.length := by
        simp only [List.flatten_cons, List.length_append] at hpos
        omega
      obtain ⟨k, hk1, hk2, hk3⟩ := ih hpos'
      exact ⟨k + 1, by simpa using hk1, by rw [btake_cons]; omega,
        by rw [btake_cons]; omega⟩

theorem byteAt_char_pos {c : List ℕ} (hc : Utf8Char c) {d : ℕ}
    (hd : d < c.length) : 0 < byteAt c d := by
  have hb : byteAt c d = c.get ⟨d, hd⟩ := by
    unfold byteAt
    rw [List.getElem?_eq_getElem hd]
    rfl
  rw [hb]
  exact (hc.2.1 _ (c.get_mem d hd)).1

/-- Counting characters starting strictly inside a character fails
immediately on the continuation byte. -/
theorem utf8count_interior_none {cs : List (List ℕ)} (h : Utf8Chars cs)
    {k d : ℕ} (hk : k < cs.length) (hd0 : 0 < d) (hd : d < cs[k].length)
    {len : ℕ} (hlen : 0 < len) :
    linedit_utf8count cs.flatten (btake cs k + d) len = none := by
  have hchar : Utf8Char cs[k] := h _ (cs.getElem_mem hk)
  unfold linedit_utf8count
  rcases hfuel : cs.flatten.length + 1 with _ | fuel
  · omega
  · unfold utf8countLoop
    rw [if_pos ⟨by omega, by
      rw [byteAt_btake_add hk hd]
      have := byteAt_char_pos hchar hd
      omega⟩]
    rw [byteAt_btake_add hk hd, interior_is_continuation hchar hd0 hd]
    simp

/-!  Wrappers of the string-operation characterizations for an arbitrary
LString with a valid data field. -/
theorem LString.eta {s : LString} {cs : List (List ℕ)}
    (hdata : s.data = cs.flatten) : s = ⟨s.alloc, cs.flatten⟩ := by
  cases s; simp_all

theorem stringlength_of_valid {s : LString} {cs : List (List ℕ)}
    (hcs : Utf8Chars cs) (hdata : s.data = cs.flatten) :
    linedit_stringlength s = cs.length := by
  rw [LString.eta hdata, stringlength_eq hcs]

theorem stringinsert_middle_of {s : LString} {cs : List (List ℕ)}
    (hcs : Utf8Chars cs) (hdata : s.data = cs.flatten) {p : ℕ}
    (hp : p < cs.length) (d : List ℕ) :
    linedit_stringinsert s p d =
      ⟨s.alloc, (cs.take p).flatten ++ d ++ (cs.drop p).flatten⟩ := by
  rw [LString.eta hdata, stringinsert_middle hcs hp d]

theorem stringinsert_end_of {s : LString} {cs : List (List ℕ)}
    (hcs : Utf8Chars cs) (hdata : s.data = cs.flatten) (d : List ℕ) :
    linedit_stringinsert s cs.length d = ⟨true, cs.flatten ++ d⟩ := by
  rw [LString.eta hdata, stringinsert_end hcs d]

theorem stringdelete_eq_of {s : LString} {cs : List (List ℕ)}
    (hcs : Utf8Chars cs) (hdata : s.data = cs.flatten) {l n : ℕ}
    (hln : l + n ≤ cs.length) :
    linedit_stringdelete s l n =
      ⟨s.alloc, (cs.take l ++ cs.drop (l + n)).flatten⟩ := by
  rw [LString.eta hdata, stringdelete_eq hcs hln]

theorem stringdelete_noop_of {s : LString} {cs : List (List ℕ)}
    (hcs : Utf8Chars cs) (hdata : s.data = cs.flatten) {l n : ℕ}
    (hln : cs.length < l + n) : linedit_stringdelete s l n = s := by
  conv_lhs => rw [LString.eta hdata]
  rw [stringdelete_noop hcs hln]
  exact (LString.eta hdata).symm

/-!  Invariant preservation through the elementary state operations. -/
theorem InvCore_setmode {s : EditState} (h : InvCore s) (hp : 0 ≤ s.posn)
    (m : Mode) : InvCore (linedit_setmode s m) := by
  obtain ⟨hbuf, hsel, hsn, hhist, hclip, hsugg, halloc⟩ := h
  rw [setmode_eq]
  have hant : 0 ≤ (if s.sposn < 0 then s.posn else s.sposn) := by
    by_cases hneg : s.sposn < 0
    · rw [if_pos hneg]; exact hp
    · rw [if_neg hneg]; omega
  refine ⟨hbuf, ?_, ?_, ?_, hclip, hsugg, halloc⟩
  · show m = Mode.selection ↔ _ ≠ -1
    by_cases hm : m = Mode.selection
    · rw [if_pos hm]
      constructor
      · intro _; dsimp only; omega
      · intro _; exact hm
    · rw [if_neg hm]
      constructor
      · intro hcon; exact absurd hcon hm
      · intro hcon; exact absurd rfl hcon
  · show m = Mode.selection → 0 ≤ _
    intro hm
    rw [if_pos hm]
    exact hant
  · show ∀ g ∈ _, ValidBuf g
    intro g hg
    simp only at hg
    split at hg
    · exact hhist g (List.mem_of_mem_tail hg)
    · exact hhist g hg

theorem setmode_posn (s : EditState) (m : Mode) :
    (linedit_setmode s m).posn = s.posn := by rw [setmode_eq]

theorem setmode_current (s : EditState) (m : Mode) :
    (linedit_setmode s m).current = s.current := by rw [setmode_eq]

theorem setmode_clipboard (s : EditState) (m : Mode) :
    (linedit_setmode s m).clipboard = s.clipboard := by rw [setmode_eq]

theorem setmode_mode (s : EditState) (m : Mode) :
    (linedit_setmode s m).mode = m := by rw [setmode_eq]

theorem Inv_setmode {s : EditState} (h : Inv s) (m : Mode) :
    Inv (linedit_setmode s m) := by
  obtain ⟨hcore, hp0, hpl⟩ := h
  refine ⟨InvCore_setmode hcore hp0 m, ?_, ?_⟩
  · rw [setmode_posn]; exact hp0
  · rw [setmode_posn, setmode_current]; exact hpl

theorem Inv_advanceposition {s : EditState} (h : InvCore s) (d : ℤ) :
    Inv (linedit_advanceposition s d) := by
  unfold linedit_advanceposition
  refine ⟨h, ?_, ?_⟩
  · show (0 : ℤ) ≤ _
    dsimp only
    split_ifs <;> omega
  · show _ ≤ ((linedit_stringlength s.current : ℕ) : ℤ)
    dsimp only
    have : (0 : ℤ) ≤ (linedit_stringlength s.current : ℤ) := Int.natCast_nonneg _
    split_ifs <;> omega

theorem Inv_setposition_neg {s : EditState} (h : InvCore s) :
    Inv (linedit_setposition s (-1)) := by
  unfold linedit_setposition
  refine ⟨h, ?_, ?_⟩
  · show (0 : ℤ) ≤ _
    rw [if_pos (by omega)]
    exact Int.natCast_nonneg _
  · show _ ≤ ((linedit_stringlength s.current : ℕ) : ℤ)
    rw [if_pos (by omega)]

theorem flatten_ne_nil {cs : List (List ℕ)} (h : Utf8Chars cs)
    (hne : cs ≠ []) : cs.flatten ≠ [] := by
  intro hcon
  apply hne
  have h1 := length_le_flatten_length h
  rw [hcon] at h1
  simp only [List.length_nil, Nat.le_zero] at h1
  exact List.length_eq_zero.mp h1

/-- Cursor bound restated on the character decomposition. -/
theorem posn_toNat_le {s : EditState} (hp0 : 0 ≤ s.posn)
    (hpl : s.posn ≤ (linedit_stringlength s.current : ℤ))
    {cs : List (List ℕ)} (hcs : Utf8Chars cs)
    (hdata : s.current.data = cs.flatten) : s.posn.toNat ≤ cs.length := by
  rw [stringlength_of_valid hcs hdata] at hpl
  omega

/-- linedit_stringlocate at the cursor of a state satisfying the
invariant: the byte offset of the cursor character. -/
theorem stringlocate_posn {s : EditState} (hp0 : 0 ≤ s.posn)
    {cs : List (List ℕ)} (hcs : Utf8Chars cs)
    (hdata : s.current.data = cs.flatten) (hple : s.posn.toNat ≤ cs.length) :
    linedit_stringlocate s.current (sizeTOfInt s.posn) =
      some (btake cs s.posn.toNat) := by
  unfold linedit_stringlocate
  rw [sizeTOfInt_of_nonneg hp0, hdata, stringutf8index_eq hcs, if_pos hple]

/-- linedit_nextgrapheme preserves the editor invariant: the cursor
advances by the number of characters counted inside one grapheme, which
never moves it past the end of the buffer. -/
theorem Inv_nextgrapheme (cfg : EditConfig) {s : EditState} (h : Inv s) :
    Inv (linedit_nextgrapheme cfg s) := by
  obtain ⟨hcore, hp0, hpl⟩ := h
  obtain ⟨cs, hcs, hdata⟩ := hcore.1
  have hple : s.posn.toNat ≤ cs.length := posn_toNat_le hp0 hpl hcs hdata
  unfold linedit_nextgrapheme
  rw [stringlocate_posn hp0 hcs hdata hple]
  dsimp only
  obtain ⟨m, hm1, hm2, hm3⟩ := @utf8countLoop_boundary_le cs hcs
    (btake cs s.posn.toNat)
    (linedit_graphemelength cfg s.current.data (btake cs s.posn.toNat))
    (cs.flatten.length + 1) s.posn.toNat 0 hple
    (by have := length_le_flatten_length hcs; omega)
  rw [← hdata] at hm3
  have hcount : linedit_utf8count s.current.data (btake cs s.posn.toNat)
      (linedit_graphemelength cfg s.current.data (btake cs s.posn.toNat)) =
      some (0 + (m - s.posn.toNat)) := by
    unfold linedit_utf8count
    exact hm3
  rw [hcount]
  refine ⟨hcore, ?_, ?_⟩
  · show (0 : ℤ) ≤ s.posn + ((0 + (m - s.posn.toNat) : ℕ) : ℤ)
    omega
  · show s.posn + ((0 + (m - s.posn.toNat) : ℕ) : ℤ) ≤
      ((linedit_stringlength s.current : ℕ) : ℤ)
    rw [stringlength_of_valid hcs hdata]
    omega

/-- The grapheme back-walk of linedit_prevgrapheme returns either its
running start or an offset strictly before op. -/
theorem prevLoop_result (cfg : EditConfig) (data : List ℕ) (op : ℕ) :
    ∀ (fuel c prev : ℕ) {r : ℕ},
    prevLoop cfg data op c prev fuel = some r → r = prev ∨ r < op := by
  intro fuel
  induction fuel with
  | zero => intro c prev r hr; left; simpa [prevLoop] using hr.symm
  | succ fuel ih =>
    intro c prev r hr
    unfold prevLoop at hr
    by_cases hc : c < op
    · rw [if_pos hc] at hr
      by_cases hlen : linedit_graphemelength cfg data c = 0
      · rw [if_pos hlen] at hr; cases hr
      · rw [if_neg hlen] at hr
        rcases ih _ _ hr with hre | hre
        · right; omega
        · right; exact hre
    · rw [if_neg hc] at hr
      left
      simpa using hr.symm

/-- linedit_prevgrapheme preserves the editor invariant. -/
theorem Inv_prevgrapheme (cfg : EditConfig) {s : EditState} (h : Inv s) :
    Inv (linedit_prevgrapheme cfg s) := by
  obtain ⟨hcore, hp0, hpl⟩ := h
  obtain ⟨cs, hcs, hdata⟩ := hcore.1
  have hple : s.posn.toNat ≤ cs.length := posn_toNat_le hp0 hpl hcs hdata
  unfold linedit_prevgrapheme
  rw [stringlocate_posn hp0 hcs hdata hple]
  dsimp only
  rcases hprev : prevLoop cfg s.current.data (btake cs s.posn.toNat) 0 0
      (btake cs s.posn.toNat + 1) with _ | r
  · exact ⟨hcore, hp0, hpl⟩
  · rcases prevLoop_result cfg s.current.data _ _ _ _ hprev with hr0 | hrlt
    · -- the walk never ran: r = 0; this happens when op = 0 or the first
      -- grapheme covers the cursor
      subst hr0
      by_cases hop : btake cs s.posn.toNat = 0
      · have hcount : linedit_utf8count s.current.data 0 (btake cs s.posn.toNat - 0) =
            some 0 := by
          unfold linedit_utf8count utf8countLoop
          rw [hop]
          rcases hfe : s.current.data.length + 1 with _ | fuel
          · omega
          · rw [if_neg (by omega)]
        dsimp only
        rw [hcount]
        refine ⟨hcore, ?_, ?_⟩
        · show (0 : ℤ) ≤ s.posn - ((0 : ℕ) : ℤ)
          omega
        · show s.posn - ((0 : ℕ) : ℤ) ≤ _
          simpa using hpl
      · -- r = 0 is the boundary of character 0 and the walk start
        have hp_pos : 0 < s.posn.toNat := by
          by_contra hcon
          exact hop (by simp [Nat.eq_zero_of_not_pos hcon, btake_zero])
        have hcount := @utf8countLoop_boundary_exact cs hcs
          0 (btake cs s.posn.toNat - 0) s.posn.toNat hple
          (fun mm hmm => by
            have := btake_strict_mono hcs hmm hple
            omega)
          (fun _ => by omega)
          (cs.flatten.length + 1) 0 0 (Nat.zero_le _)
          (by have := length_le_flatten_length hcs; omega)
        rw [btake_zero] at hcount
        have hcount2 : linedit_utf8count s.current.data 0
            (btake cs s.posn.toNat - 0) = some (0 + (s.posn.toNat - 0)) := by
          unfold linedit_utf8count
          conv_lhs => rw [hdata]
          exact hcount
        dsimp only
        rw [hcount2]
        refine ⟨hcore, ?_, ?_⟩
        · show (0 : ℤ) ≤ s.posn - ((0 + (s.posn.toNat - 0) : ℕ) : ℤ)
          omega
        · show s.posn - ((0 + (s.posn.toNat - 0) : ℕ) : ℤ) ≤
            ((linedit_stringlength s.current : ℕ) : ℤ)
          rw [stringlength_of_valid hcs hdata]
          omega
    · -- r < op: r sits at or inside some character k
      have hoplen : btake cs s.posn.toNat ≤ cs.flatten.length :=
        btake_le_flatten cs s.posn.toNat
      obtain ⟨k, hk, hbk1, hbk2⟩ := @exists_char_containing cs r (by omega)
      by_cases hbd : r = btake cs k
      · -- r is the boundary of character k, strictly before the cursor
        have hkp : k < s.posn.toNat := by
          by_contra hcon
          have := @btake_mono cs s.posn.toNat k (by omega)
          omega
        have hmono : btake cs k ≤ btake cs s.posn.toNat :=
          btake_mono (by omega)
        have hcount := @utf8countLoop_boundary_exact cs hcs
          (btake cs k) (btake cs s.posn.toNat - btake cs k) s.posn.toNat hple
          (fun mm hmm => by
            have := btake_strict_mono hcs hmm hple
            omega)
          (fun _ => by omega)
          (cs.flatten.length + 1) k 0 (by omega)
          (by have := length_le_flatten_length hcs; omega)
        have hcount2 : linedit_utf8count s.current.data r
            (btake cs s.posn.toNat - r) = some (0 + (s.posn.toNat - k)) := by
          unfold linedit_utf8count
          conv_lhs => rw [hdata, hbd]
          exact hcount
        dsimp only
        rw [hcount2]
        refine ⟨hcore, ?_, ?_⟩
        · show (0 : ℤ) ≤ s.posn - ((0 + (s.posn.toNat - k) : ℕ) : ℤ)
          omega
        · show s.posn - ((0 + (s.posn.toNat - k) : ℕ) : ℤ) ≤ _
          rw [stringlength_of_valid hcs hdata]
          omega
      · -- r lies strictly inside character k: the count fails on the
        -- continuation byte and the state is unchanged
        have hd0 : 0 < r - btake cs k := by omega
        have hdlt : r - btake cs k < cs[k].length := by
          have := btake_succ hk
          omega
        have hcount := @utf8count_interior_none cs hcs k (r - btake cs k)
          hk hd0 hdlt (btake cs s.posn.toNat - r) (by omega)
        have hre : btake cs k + (r - btake cs k) = r := by omega
        rw [hre] at hcount
        have hcount2 : linedit_utf8count s.current.data r
            (btake cs s.posn.toNat - r) = none := by
          conv_lhs => rw [hdata]
          exact hcount
        dsimp only
        rw [hcount2]
        exact ⟨hcore, hp0, hpl⟩

theorem Inv_processarrowkeypress (cfg : EditConfig) {s : EditState}
    (h : Inv s) (m : Mode) (d : ℤ) :
    Inv (linedit_processarrowkeypress cfg s m d) := by
  unfold linedit_processarrowkeypress
  have h1 := Inv_setmode h m
  by_cases hd : d > 0
  · rw [if_pos hd]; exact Inv_nextgrapheme cfg h1
  · rw [if_neg hd]; exact Inv_prevgrapheme cfg h1

theorem Inv_processchangeline {s : EditState} (h : Inv s) (d : ℤ) :
    Inv (linedit_processchangeline s d) := by
  obtain ⟨hcore1, hp01, hpl1⟩ := Inv_setmode h Mode.default
  obtain ⟨cs, hcs, hdata⟩ := hcore1.1
  unfold linedit_processchangeline
  refine ⟨hcore1, ?_, ?_⟩
  · show (0 : ℤ) ≤ ((linedit_stringfindposition _ _ _ : ℕ) : ℤ)
    exact Int.natCast_nonneg _
  · show ((linedit_stringfindposition (linedit_setmode s Mode.default).current.data _ _ : ℕ) : ℤ) ≤
      ((linedit_stringlength (linedit_setmode s Mode.default).current : ℕ) : ℤ)
    rw [stringlength_of_valid hcs hdata]
    have hle : linedit_stringfindposition (linedit_setmode s Mode.default).current.data
        (linedit_stringcoordinates (linedit_setmode s Mode.default).current.data
          (linedit_setmode s Mode.default).posn).1
        (if (linedit_stringcoordinates (linedit_setmode s Mode.default).current.data
              (linedit_setmode s Mode.default).posn).2 + d < 0 then 0
         else (linedit_stringcoordinates (linedit_setmode s Mode.default).current.data
              (linedit_setmode s Mode.default).posn).2 + d) ≤ cs.length := by
      rw [hdata]
      exact stringfindposition_le hcs _ _
    exact_mod_cast hle

theorem InvCore_historyadvance {s : EditState} (h : InvCore s) (n : ℤ) :
    InvCore (linedit_historyadvance s n) := by
  obtain ⟨hbuf, hsel, hsn, hhist, hclip, hsugg, halloc⟩ := h
  unfold linedit_historyadvance
  dsimp only
  rcases hsel2 : linedit_historyselect s (uintOfInt ((s.hposn : ℤ) + n)) with ⟨s1, m⟩
  rcases historyselect_cases s (uintOfInt ((s.hposn : ℤ) + n)) with hcase | ⟨g, hg, hcase⟩ <;>
    rw [hsel2] at hcase <;> dsimp only at hcase <;> rw [hcase] <;> dsimp only
  · exact ⟨hbuf, hsel, hsn, hhist, hclip, hsugg, halloc⟩
  · exact ⟨(hhist g hg : ValidBuf g), hsel, hsn, hhist, hclip, hsugg, by simp⟩

theorem Inv_generatesuggestions {cfg : EditConfig} (hcfg : ConfigOK cfg)
    {s : EditState} (h : Inv s) : Inv (linedit_generatesuggestions cfg s) := by
  obtain ⟨⟨hbuf, hsel, hsn, hhist, hclip, hsugg, halloc⟩, hp0, hpl⟩ := h
  unfold linedit_generatesuggestions
  rcases hc : cfg.completer with _ | f
  · exact ⟨⟨hbuf, hsel, hsn, hhist, hclip, hsugg, halloc⟩, hp0, hpl⟩
  · dsimp only
    by_cases hcond : s.current.alloc && linedit_atend s
    · rw [if_pos hcond]
      exact ⟨⟨hbuf, hsel, hsn, hhist, hclip,
        fun g hg => hcfg f hc _ g hg, halloc⟩, hp0, hpl⟩
    · rw [if_neg hcond]
      exact ⟨⟨hbuf, hsel, hsn, hhist, hclip,
        fun g hg => absurd hg (List.not_mem_nil g), halloc⟩, hp0, hpl⟩

theorem flatten_eq_nil {cs : List (List ℕ)} (h : Utf8Chars cs)
    (hf : cs.flatten = []) : cs = [] := by
  by_contra hne
  exact flatten_ne_nil h hne hf

/-- A byte slice between two character boundaries is the flattening of
the characters in between. -/
theorem flatten_slice (cs : List (List ℕ)) {a b : ℕ} (hab : a ≤ b)
    (_hb : b ≤ cs.length) :
    (cs.flatten.drop (btake cs a)).take (btake cs b - btake cs a) =
      ((cs.drop a).take (b - a)).flatten := by
  rw [flatten_drop_btake]
  have hdiff : btake cs b - btake cs a = btake (cs.drop a) (b - a) := by
    rcases Nat.le_total a cs.length with ha | ha
    · have h1 := @btake_add cs a ha (b - a)
      rw [show a + (b - a) = b by omega] at h1
      omega
    · have h1 : btake cs a = cs.flatten.length := btake_of_ge (by omega)
      have h2 : btake cs b = cs.flatten.length := btake_of_ge (by omega)
      have h3 : cs.drop a = [] := List.drop_of_length_le (by omega)
      rw [h1, h2, h3, btake_nil]
      omega
  rw [hdiff, flatten_take_btake]

/-- ValidBuf for the result of an insert at a reachable position. -/
theorem ValidBuf_stringinsert {t : LString} {cs : List (List ℕ)}
    (hcs : Utf8Chars cs) (hdata : t.data = cs.flatten)
    (halloc : t.alloc = false → t.data = []) {p : ℕ} (hp : p ≤ cs.length)
    {d : List ℕ} (hd : ValidBuf d) :
    ValidBuf (linedit_stringinsert t p d).data ∧
    ((linedit_stringinsert t p d).alloc = false →
      (linedit_stringinsert t p d).data = []) := by
  rcases Nat.lt_or_ge p cs.length with hlt | hge
  · rw [stringinsert_middle_of hcs hdata hlt d]
    constructor
    · exact (ValidBuf.append_buf ⟨cs.take p, hcs.take p, rfl⟩
        (ValidBuf.append_buf hd ⟨cs.drop p, hcs.drop p, rfl⟩)).imp
        (fun ds hds => by
          obtain ⟨h1, h2⟩ := hds
          exact ⟨h1, by simpa [List.append_assoc] using h2⟩)
    · intro hfa
      exfalso
      have hnil := halloc hfa
      rw [hdata] at hnil
      have := flatten_eq_nil hcs hnil
      subst this
      simp at hlt
  · have hpe : p = cs.length := le_antisymm hp hge
    subst hpe
    rw [stringinsert_end_of hcs hdata d]
    exact ⟨ValidBuf.append_buf ⟨cs, hcs, rfl⟩ hd, by simp⟩

/-- The character key: set default mode, insert the character at the
cursor, advance the cursor. -/
theorem Inv_applyKey_char (cfg : EditConfig) {s : EditState} (hs : Inv s)
    {c : List ℕ} (hc : Utf8Char c) : Inv (applyKey cfg s (Key.char c)).1 := by
  obtain ⟨hcore, hp0, hpl⟩ := hs
  obtain ⟨cs, hcs, hdata⟩ := hcore.1
  have h1 := Inv_setmode ⟨hcore, hp0, hpl⟩ Mode.default
  obtain ⟨⟨h1buf, h1sel, h1sn, h1hist, h1clip, h1sugg, h1alloc⟩, h1p0, h1pl⟩ := h1
  show Inv (linedit_advanceposition _ 1)
  apply Inv_advanceposition
  have hd1 : (linedit_setmode s Mode.default).current = s.current :=
    setmode_current s Mode.default
  have hdata1 : (linedit_setmode s Mode.default).current.data = cs.flatten := by
    rw [hd1, hdata]
  have hp1 : sizeTOfInt (linedit_setmode s Mode.default).posn = s.posn.toNat := by
    rw [setmode_posn, sizeTOfInt_of_nonneg hp0]
  have hple : s.posn.toNat ≤ cs.length := posn_toNat_le hp0 hpl hcs hdata
  have hins := ValidBuf_stringinsert hcs hdata1
    (by rw [hd1]; exact hcore.2.2.2.2.2.2) hple hc.validBuf
  rw [hp1]
  exact ⟨hins.1, h1sel, h1sn, h1hist, h1clip, h1sugg, hins.2⟩

/-- The DELETE key: remove the selection or the character left of the
cursor, then leave selection mode. -/
theorem Inv_applyKey_del (cfg : EditConfig) {s : EditState} (hs : Inv s) :
    Inv (applyKey cfg s Key.del).1 := by
  obtain ⟨hcore, hp0, hpl⟩ := hs
  obtain ⟨hbuf, hsel, hsn, hhist, hclip, hsugg, halloc⟩ := hcore
  obtain ⟨cs, hcs, hdata⟩ := hbuf
  have hple : s.posn.toNat ≤ cs.length := by
    rw [stringlength_of_valid hcs hdata] at hpl; omega
  show Inv (linedit_setmode _ Mode.default)
  apply Inv_setmode
  by_cases hm : s.mode = Mode.selection
  · rw [if_pos hm]
    have hsp0 : 0 ≤ s.sposn := hsn hm
    have hl0 : 0 ≤ min s.sposn s.posn := le_min hsp0 hp0
    have hr0 : 0 ≤ max s.sposn s.posn := le_max_of_le_right hp0
    have hlr : min s.sposn s.posn ≤ max s.sposn s.posn := min_le_max
    have hconv : sizeTOfInt (min s.sposn s.posn) = (min s.sposn s.posn).toNat :=
      sizeTOfInt_of_nonneg hl0
    have hconv2 : sizeTOfInt (max s.sposn s.posn - min s.sposn s.posn) =
        (max s.sposn s.posn - min s.sposn s.posn).toNat :=
      sizeTOfInt_of_nonneg (by omega)
    dsimp only
    rw [hconv, hconv2]
    have hsum : (min s.sposn s.posn).toNat +
        (max s.sposn s.posn - min s.sposn s.posn).toNat =
        (max s.sposn s.posn).toNat := by omega
    rcases le_or_lt (max s.sposn s.posn).toNat cs.length with hrle | hrgt
    · rw [stringdelete_eq_of hcs hdata (by omega)]
      have hlen2 : Utf8Chars (cs.take (min s.sposn s.posn).toNat ++
          cs.drop ((min s.sposn s.posn).toNat +
            (max s.sposn s.posn - min s.sposn s.posn).toNat)) :=
        (hcs.take _).append (hcs.drop _)
      refine ⟨⟨⟨_, hlen2, rfl⟩, hsel, hsn, hhist, hclip, hsugg, ?_⟩, ?_, ?_⟩
      · intro hfa
        have hnil := halloc hfa
        rw [hdata] at hnil
        have hcse := flatten_eq_nil hcs hnil
        subst hcse
        simp
      · show (0 : ℤ) ≤ min s.sposn s.posn
        exact hl0
      · show min s.sposn s.posn ≤ ((linedit_stringlength _ : ℕ) : ℤ)
        rw [stringlength_of_valid hlen2 rfl]
        have hmin : min s.sposn s.posn ≤ s.posn := min_le_right _ _
        have hlen3 : (cs.take (min s.sposn s.posn).toNat).length =
            (min s.sposn s.posn).toNat := by
          rw [List.length_take]
          have : (min s.sposn s.posn).toNat ≤ cs.length := by omega
          omega
        rw [List.length_append, hlen3]
        omega
    · rw [stringdelete_noop_of hcs hdata (by omega)]
      refine ⟨⟨⟨cs, hcs, hdata⟩, hsel, hsn, hhist, hclip, hsugg, halloc⟩, ?_, ?_⟩
      · exact hl0
      · show min s.sposn s.posn ≤ ((linedit_stringlength s.current : ℕ) : ℤ)
        have : min s.sposn s.posn ≤ s.posn := min_le_right _ _
        omega
  · rw [if_neg hm]
    by_cases hp : s.posn > 0
    · rw [if_pos hp]
      apply Inv_advanceposition
      have hconv : sizeTOfInt (s.posn - 1) = (s.posn - 1).toNat :=
        sizeTOfInt_of_nonneg (by omega)
      rw [hconv]
      have hsum : (s.posn - 1).toNat + 1 = s.posn.toNat := by omega
      rcases le_or_lt ((s.posn - 1).toNat + 1) cs.length with hle | hgt
      · rw [stringdelete_eq_of hcs hdata hle]
        refine ⟨⟨_, (hcs.take _).append (hcs.drop _), rfl⟩,
          hsel, hsn, hhist, hclip, hsugg, ?_⟩
        intro hfa
        have hnil := halloc hfa
        rw [hdata] at hnil
        have hcse := flatten_eq_nil hcs hnil
        subst hcse
        simp
      · rw [stringdelete_noop_of hcs hdata hgt]
        exact ⟨⟨cs, hcs, hdata⟩, hsel, hsn, hhist, hclip, hsugg, halloc⟩
    · rw [if_neg hp]
      exact ⟨⟨⟨cs, hcs, hdata⟩, hsel, hsn, hhist, hclip, hsugg, halloc⟩, hp0, hpl⟩

/-- The UP key: snapshot into history on first entry, recall an entry,
move to the end. -/
theorem Inv_applyKey_up (cfg : EditConfig) {s : EditState} (hs : Inv s) :
    Inv (applyKey cfg s Key.up).1 := by
  obtain ⟨hcore, hp0, hpl⟩ := hs
  show Inv (linedit_setposition (linedit_historyadvance _ 1) (-1))
  apply Inv_setposition_neg
  apply InvCore_historyadvance
  by_cases hm : s.mode ≠ Mode.history
  · rw [if_pos hm]
    obtain ⟨⟨h1buf, h1sel, h1sn, h1hist, h1clip, h1sugg, h1alloc⟩, _, _⟩ :=
      Inv_setmode ⟨hcore, hp0, hpl⟩ Mode.history
    unfold linedit_historyadd
    refine ⟨h1buf, h1sel, h1sn, fun g hg => ?_, h1clip, h1sugg, h1alloc⟩
    rcases List.mem_cons.mp hg with hg | hg
    · subst hg; exact h1buf
    · exact h1hist g hg
  · rw [if_neg hm]
    exact hcore

/-- The DOWN key: recall a newer history entry, or cycle suggestions. -/
theorem Inv_applyKey_down (cfg : EditConfig) {s : EditState} (hs : Inv s) :
    Inv (applyKey cfg s Key.down).1 := by
  obtain ⟨hcore, hp0, hpl⟩ := hs
  obtain ⟨hbuf, hsel, hsn, hhist, hclip, hsugg, halloc⟩ := hcore
  unfold applyKey
  by_cases hm : s.mode = Mode.history
  · rw [if_pos hm]
    exact Inv_setposition_neg (InvCore_historyadvance
      ⟨hbuf, hsel, hsn, hhist, hclip, hsugg, halloc⟩ (-1))
  · rw [if_neg hm]
    by_cases hsug : linedit_aresuggestionsavailable s
    · rw [if_pos hsug]
      show Inv (linedit_advancesuggestions s 1)
      unfold linedit_advancesuggestions
      dsimp only
      rcases linedit_stringlistselect s.suggestions (s.sugposn + 1) with ⟨og, np⟩
      dsimp only
      split_ifs <;>
        exact ⟨⟨hbuf, hsel, hsn, hhist, hclip, hsugg, halloc⟩, hp0, hpl⟩
    · rw [if_neg hsug]
      exact ⟨⟨hbuf, hsel, hsn, hhist, hclip, hsugg, halloc⟩, hp0, hpl⟩

/-- The RETURN key: insert a newline in multiline mode, otherwise accept
the line (no state change). -/
theorem Inv_applyKey_ret (cfg : EditConfig) {s : EditState} (hs : Inv s) :
    Inv (applyKey cfg s Key.ret).1 := by
  obtain ⟨hcore, hp0, hpl⟩ := hs
  obtain ⟨hbuf, hsel, hsn, hhist, hclip, hsugg, halloc⟩ := hcore
  obtain ⟨cs, hcs, hdata⟩ := hbuf
  unfold applyKey
  by_cases hml : linedit_shouldmultiline cfg s
  · rw [if_pos hml]
    apply Inv_advanceposition
    refine ⟨?_, hsel, hsn, hhist, hclip, hsugg,
      by simp [linedit_stringaddcstring]⟩
    show ValidBuf (s.current.data ++ [10])
    exact ValidBuf.append_buf ⟨cs, hcs, hdata⟩ Utf8Char.newline.validBuf
  · rw [if_neg hml]
    exact ⟨⟨⟨cs, hcs, hdata⟩, hsel, hsn, hhist, hclip, hsugg, halloc⟩, hp0, hpl⟩

/-- The TAB key: commit the current suggestion or insert a literal tab. -/
theorem Inv_applyKey_tab (cfg : EditConfig) {s : EditState} (hs : Inv s) :
    Inv (applyKey cfg s Key.tab).1 := by
  obtain ⟨⟨h1buf, h1sel, h1sn, h1hist, h1clip, h1sugg, h1alloc⟩, h1p0, h1pl⟩ :=
    Inv_setmode hs Mode.default
  obtain ⟨cs, hcs, hdata⟩ := h1buf
  unfold applyKey
  dsimp only
  by_cases hsug : linedit_aresuggestionsavailable (linedit_setmode s Mode.default)
  · rw [if_pos hsug]
    rcases hcur : linedit_currentsuggestion (linedit_setmode s Mode.default)
        with _ | sugg
    · dsimp only
      exact ⟨⟨⟨cs, hcs, hdata⟩, h1sel, h1sn, h1hist, h1clip, h1sugg, h1alloc⟩,
        h1p0, h1pl⟩
    · dsimp only
      show Inv (linedit_movetoend _)
      unfold linedit_movetoend
      apply Inv_setposition_neg
      refine ⟨?_, h1sel, h1sn, h1hist, h1clip, h1sugg,
        by simp [linedit_stringaddcstring]⟩
      show ValidBuf ((linedit_setmode s Mode.default).current.data ++ sugg)
      exact ValidBuf.append_buf ⟨cs, hcs, hdata⟩
        (h1sugg sugg (currentsuggestion_mem hcur))
  · rw [if_neg hsug]
    dsimp only
    apply Inv_advanceposition
    have hple : (linedit_setmode s Mode.default).posn.toNat ≤ cs.length :=
      posn_toNat_le h1p0 h1pl hcs hdata
    have hconv : sizeTOfInt (linedit_setmode s Mode.default).posn =
        (linedit_setmode s Mode.default).posn.toNat :=
      sizeTOfInt_of_nonneg h1p0
    rw [hconv]
    have hins := ValidBuf_stringinsert hcs hdata h1alloc hple
      Utf8Char.tabchar.validBuf
    exact ⟨hins.1, h1sel, h1sn, h1hist, h1clip, h1sugg, hins.2⟩

/-- Cursor repositioning to a found position after leaving selection
mode preserves the invariant (Ctrl-A and Ctrl-E). -/
theorem Inv_findposition_update {s : EditState} (hs : Inv s) (x y : ℤ) :
    Inv { linedit_setmode s Mode.default with
          posn := (linedit_stringfindposition
            (linedit_setmode s Mode.default).current.data x y : ℤ) } := by
  obtain ⟨⟨h1buf, h1sel, h1sn, h1hist, h1clip, h1sugg, h1alloc⟩, _, _⟩ :=
    Inv_setmode hs Mode.default
  obtain ⟨cs, hcs, hdata⟩ := h1buf
  refine ⟨⟨⟨cs, hcs, hdata⟩, h1sel, h1sn, h1hist, h1clip, h1sugg, h1alloc⟩, ?_, ?_⟩
  · show (0 : ℤ) ≤ _
    exact Int.natCast_nonneg _
  · show ((linedit_stringfindposition _ x y : ℕ) : ℤ) ≤
      ((linedit_stringlength (linedit_setmode s Mode.default).current : ℕ) : ℤ)
    rw [stringlength_of_valid hcs hdata]
    have h2 : linedit_stringfindposition
        (linedit_setmode s Mode.default).current.data x y ≤ cs.length := by
      rw [hdata]
      exact stringfindposition_le hcs x y
    exact_mod_cast h2

set_option maxHeartbeats 1000000 in
/-- Ctrl-letter bindings preserve the invariant. -/
theorem Inv_applyKey_ctrl (cfg : EditConfig) {s : EditState} (hs : Inv s)
    (c : ℕ) : Inv (applyKey cfg s (Key.ctrl c)).1 := by
  obtain ⟨hcore, hp0, hpl⟩ := hs
  obtain ⟨hbuf, hsel, hsn, hhist, hclip, hsugg, halloc⟩ := hcore
  obtain ⟨cs, hcs, hdata⟩ := hbuf
  have hple : s.posn.toNat ≤ cs.length := by
    rw [stringlength_of_valid hcs hdata] at hpl; omega
  have hs2 : Inv s :=
    ⟨⟨⟨cs, hcs, hdata⟩, hsel, hsn, hhist, hclip, hsugg, halloc⟩, hp0, hpl⟩
  unfold applyKey
  dsimp only
  by_cases h65 : c = 65
  · rw [if_pos h65]
    exact Inv_findposition_update hs2 0 _
  rw [if_neg h65]
  by_cases h66 : c = 66
  · rw [if_pos h66]
    exact Inv_processarrowkeypress cfg hs2 Mode.default (-1)
  rw [if_neg h66]
  by_cases h67 : c = 67
  · rw [if_pos h67]
    by_cases hm : s.mode = Mode.selection
    · rw [if_pos hm]
      have hsp0 : 0 ≤ s.sposn := hsn hm
      have hl0 : 0 ≤ min s.sposn s.posn := le_min hsp0 hp0
      have hr0 : 0 ≤ max s.sposn s.posn := le_max_of_le_right hp0
      have hlN : (min s.sposn s.posn).toNat ≤ cs.length := by
        have : min s.sposn s.posn ≤ s.posn := min_le_right _ _
        omega
      have hidxl : linedit_stringutf8index s.current.data
          (sizeTOfInt (min s.sposn s.posn)) 0 =
          some (btake cs (min s.sposn s.posn).toNat) := by
        rw [sizeTOfInt_of_nonneg hl0, hdata, stringutf8index_eq hcs,
          if_pos hlN]
      rw [hidxl]
      dsimp only
      by_cases hrN : (max s.sposn s.posn).toNat ≤ cs.length
      · have hidxr : linedit_stringutf8index s.current.data
            (sizeTOfInt (max s.sposn s.posn)) 0 =
            some (btake cs (max s.sposn s.posn).toNat) := by
          rw [sizeTOfInt_of_nonneg hr0, hdata, stringutf8index_eq hcs,
            if_pos hrN]
        rw [hidxr]
        dsimp only
        refine ⟨⟨⟨cs, hcs, hdata⟩, hsel, hsn, hhist, ?_, hsugg, halloc⟩,
          hp0, hpl⟩
        show ValidBuf ([] ++ (s.current.data.drop _).take _)
        rw [List.nil_append, hdata, flatten_slice cs
          (by
            have : min s.sposn s.posn ≤ max s.sposn s.posn := min_le_max
            omega) hrN]
        exact ⟨_, (hcs.drop _).take _, rfl⟩
      · have hidxr : linedit_stringutf8index s.current.data
            (sizeTOfInt (max s.sposn s.posn)) 0 = none := by
          rw [sizeTOfInt_of_nonneg hr0, hdata, stringutf8index_eq hcs,
            if_neg hrN]
        rw [hidxr]
        exact hs2
    · rw [if_neg hm]
      exact hs2
  rw [if_neg h67]
  by_cases h68 : c = 68
  · rw [if_pos h68]
    have hconv : sizeTOfInt (linedit_setmode s Mode.default).posn =
        s.posn.toNat := by
      rw [setmode_posn, sizeTOfInt_of_nonneg hp0]
    obtain ⟨⟨h1buf, h1sel, h1sn, h1hist, h1clip, h1sugg, h1alloc⟩, h1p0, h1pl⟩ :=
      Inv_setmode hs2 Mode.default
    have hdata1 : (linedit_setmode s Mode.default).current.data = cs.flatten := by
      rw [setmode_current, hdata]
    show Inv { linedit_setmode s Mode.default with
      current := linedit_stringdelete (linedit_setmode s Mode.default).current
        (sizeTOfInt (linedit_setmode s Mode.default).posn) 1 }
    rw [hconv]
    rcases le_or_lt (s.posn.toNat + 1) cs.length with hle | hgt
    · rw [stringdelete_eq_of hcs hdata1 hle]
      refine ⟨⟨⟨_, (hcs.take _).append (hcs.drop _), rfl⟩,
        h1sel, h1sn, h1hist, h1clip, h1sugg, ?_⟩, ?_, ?_⟩
      · intro hfa
        have hnil := halloc (by rw [← setmode_current s Mode.default]; exact hfa)
        rw [hdata] at hnil
        have hcse := flatten_eq_nil hcs hnil
        subst hcse
        simp
      · show (0 : ℤ) ≤ (linedit_setmode s Mode.default).posn
        exact h1p0
      · show (linedit_setmode s Mode.default).posn ≤
          ((linedit_stringlength _ : ℕ) : ℤ)
        rw [stringlength_of_valid ((hcs.take _).append (hcs.drop _)) rfl]
        rw [setmode_posn]
        have hlen3 : (cs.take s.posn.toNat).length = s.posn.toNat := by
          rw [List.length_take]; omega
        rw [List.length_append, hlen3, List.length_drop]
        omega
    · rw [stringdelete_noop_of hcs hdata1 hgt]
      have hcur : { linedit_setmode s Mode.default with
          current := (linedit_setmode s Mode.default).current } =
          linedit_setmode s Mode.default := rfl
      rw [hcur]
      exact Inv_setmode hs2 Mode.default
  rw [if_neg h68]
  by_cases h69 : c = 69
  · rw [if_pos h69]
    exact Inv_findposition_update hs2 (-1) _
  rw [if_neg h69]
  by_cases h70 : c = 70
  · rw [if_pos h70]
    exact Inv_processarrowkeypress cfg hs2 Mode.default 1
  rw [if_neg h70]
  by_cases h71 : c = 71
  · rw [if_pos h71]
    refine ⟨⟨ValidBuf.nil, hsel, hsn, hhist, hclip, hsugg, fun _ => rfl⟩,
      le_refl _, ?_⟩
    show (0 : ℤ) ≤ _
    exact Int.natCast_nonneg _
  rw [if_neg h71]
  by_cases h76 : c = 76
  · rw [if_pos h76]
    obtain ⟨⟨h1buf, h1sel, h1sn, h1hist, h1clip, h1sugg, h1alloc⟩, h1p0, h1pl⟩ :=
      Inv_setmode hs2 Mode.default
    refine ⟨⟨ValidBuf.nil, h1sel, h1sn, h1hist, h1clip, h1sugg, fun _ => rfl⟩,
      le_refl _, ?_⟩
    show (0 : ℤ) ≤ _
    exact Int.natCast_nonneg _
  rw [if_neg h76]
  by_cases h78 : c = 78
  · rw [if_pos h78]
    exact Inv_processchangeline hs2 1
  rw [if_neg h78]
  by_cases h80 : c = 80
  · rw [if_pos h80]
    exact Inv_processchangeline hs2 (-1)
  rw [if_neg h80]
  by_cases h86 : c = 86
  · rw [if_pos h86]
    obtain ⟨⟨h1buf, h1sel, h1sn, h1hist, h1clip, h1sugg, h1alloc⟩, h1p0, h1pl⟩ :=
      Inv_setmode hs2 Mode.default
    have hdata1 : (linedit_setmode s Mode.default).current.data = cs.flatten := by
      rw [setmode_current, hdata]
    by_cases hcl : (linedit_setmode s Mode.default).clipboard.data.length > 0
    · rw [if_pos hcl]
      dsimp only
      apply Inv_advanceposition
      have hple1 : (linedit_setmode s Mode.default).posn.toNat ≤ cs.length :=
        posn_toNat_le h1p0 h1pl hcs hdata1
      have hconv : sizeTOfInt (linedit_setmode s Mode.default).posn =
          (linedit_setmode s Mode.default).posn.toNat :=
        sizeTOfInt_of_nonneg h1p0
      rw [hconv]
      have hins := ValidBuf_stringinsert hcs hdata1 h1alloc hple1 h1clip
      exact ⟨hins.1, h1sel, h1sn, h1hist, h1clip, h1sugg, hins.2⟩
    · rw [if_neg hcl]
      exact Inv_setmode hs2 Mode.default
  rw [if_neg h86]
  exact hs2

/-- linedit keypress dispatch preserves the editor invariant. -/
theorem applyKey_inv (cfg : EditConfig) {s : EditState} {k : Key}
    (hs : Inv s) (hk : KeyOK k) : Inv (applyKey cfg s k).1 := by
  cases k with
  | char c => exact Inv_applyKey_char cfg hs hk
  | del => exact Inv_applyKey_del cfg hs
  | left => exact Inv_processarrowkeypress cfg hs Mode.default (-1)
  | right => exact Inv_processarrowkeypress cfg hs Mode.default 1
  | sleft => exact Inv_processarrowkeypress cfg hs Mode.selection (-1)
  | sright => exact Inv_processarrowkeypress cfg hs Mode.selection 1
  | up => exact Inv_applyKey_up cfg hs
  | down => exact Inv_applyKey_down cfg hs
  | ret => exact Inv_applyKey_ret cfg hs
  | tab => exact Inv_applyKey_tab cfg hs
  | ctrl c => exact Inv_applyKey_ctrl cfg hs c
  | unknown => exact hs

/-- One processed keypress preserves the editor invariant. -/
theorem processkeypress_inv (cfg : EditConfig) (hcfg : ConfigOK cfg)
    {s : EditState} {k : Key} (hs : Inv s) (hk : KeyOK k) :
    Inv (linedit_processkeypress cfg s k).1 := by
  unfold linedit_processkeypress
  have h1 := applyKey_inv cfg hs hk
  rcases happ : applyKey cfg s k with ⟨s1, cont, regen⟩
  rw [happ] at h1
  cases cont with
  | false => exact h1
  | true =>
    cases regen with
    | false => exact h1
    | true => exact Inv_generatesuggestions hcfg h1

/-- Every state in a keypress trace satisfies the invariant. -/
theorem runKeys_inv (cfg : EditConfig) (hcfg : ConfigOK cfg) :
    ∀ (ks : List Key) (s : EditState), Inv s → (∀ k ∈ ks, KeyOK k) →
    ∀ st ∈ runKeys cfg s ks, Inv st := by
  intro ks
  induction ks with
  | nil => intro s _ _ st hst; simp [runKeys] at hst
  | cons k rest ih =>
    intro s hs hks st hst
    unfold runKeys at hst
    have h1 : Inv (linedit_processkeypress cfg s k).1 :=
      processkeypress_inv cfg hcfg hs (hks k (List.mem_cons_self _ _))
    rcases hp : linedit_processkeypress cfg s k with ⟨s1, cont⟩
    rw [hp] at hst h1
    cases cont with
    | true =>
      rcases List.mem_cons.mp hst with hst | hst
      · subst hst; exact h1
      · exact ih s1 h1 (fun k2 hk2 => hks k2 (List.mem_cons_of_mem _ hk2)) st hst
    | false =>
      rcases List.mem_singleton.mp hst with rfl
      exact h1

/-- The fresh-session start state satisfies the invariant. -/
theorem initState_inv : Inv initState := by
  refine ⟨⟨ValidBuf.nil, ?_, ?_, ?_, ValidBuf.nil, ?_, fun _ => rfl⟩, ?_, ?_⟩ <;>
    simp [initState, linedit_stringinit]

/-- C1: for every sequence of keypresses processed within a single
interactive read_line session (starting from the initial state with
posn = 0 and an empty buffer), after each keypress is fully processed
the cursor position satisfies 0 ≤ posn ≤ char_count(buffer).  Keypresses
carry well-formed UTF-8 characters (as linedit_readkey produces) and the
completion callback returns well-formed suggestion strings. -/
theorem C1_cursor_in_bounds (cfg : EditConfig) (hcfg : ConfigOK cfg)
    (ks : List Key) (hks : ∀ k ∈ ks, KeyOK k)
    (st : EditState) (hst : st ∈ runKeys cfg initState ks) :
    0 ≤ st.posn ∧ st.posn ≤ (linedit_stringlength st.current : ℤ) := by
  have h := runKeys_inv cfg hcfg ks initState initState_inv hks st hst
  exact ⟨h.2.1, h.2.2⟩

/-- Witness for C1 at a concrete keypress sequence. -/
theorem C1_cursor_in_bounds_witness :
    0 ≤ (EditState.mk Mode.default 1 (-1) ⟨true, [104]⟩ ⟨false, []⟩ [] 0 [] 0).posn ∧
    (EditState.mk Mode.default 1 (-1) ⟨true, [104]⟩ ⟨false, []⟩ [] 0 [] 0).posn ≤
      (linedit_stringlength
        (EditState.mk Mode.default 1 (-1) ⟨true, [104]⟩ ⟨false, []⟩ [] 0 [] 0).current : ℤ) :=
  C1_cursor_in_bounds ⟨none, none, none⟩
    (fun f hf => by cases hf) [Key.char [104]] (by decide)
    (EditState.mk Mode.default 1 (-1) ⟨true, [104]⟩ ⟨false, []⟩ [] 0 [] 0)
    (by decide)

/-- C2: at every observable state of a session, mode = SELECTION holds
iff sposn is not -1; moreover linedit_setmode latches sposn = posn on
entering selection mode with no active anchor and resets sposn to -1 on
entering any non-selection mode. -/
theorem C2_selection_anchor (cfg : EditConfig) (hcfg : ConfigOK cfg)
    (ks : List Key) (hks : ∀ k ∈ ks, KeyOK k)
    (st : EditState) (hst : st ∈ runKeys cfg initState ks) :
    (st.mode = Mode.selection ↔ st.sposn ≠ -1) ∧
    (∀ t : EditState, t.sposn < 0 →
      (linedit_setmode t Mode.selection).sposn = t.posn) ∧
    (∀ (t : EditState) (m : Mode), m ≠ Mode.selection →
      (linedit_setmode t m).sposn = -1) := by
  have h := runKeys_inv cfg hcfg ks initState initState_inv hks st hst
  refine ⟨h.1.2.1, ?_, ?_⟩
  · intro t ht
    rw [setmode_eq]
    dsimp only
    rw [if_pos rfl, if_pos ht]
  · intro t m hm
    rw [setmode_eq]
    dsimp only
    rw [if_neg hm]

/-- Witness for C2 at a concrete keypress sequence entering selection
mode. -/
theorem C2_selection_anchor_witness :
    ((EditState.mk Mode.selection 1 1 ⟨true, [104]⟩ ⟨false, []⟩ [] 0 [] 0).mode
        = Mode.selection ↔
      (EditState.mk Mode.selection 1 1 ⟨true, [104]⟩ ⟨false, []⟩ [] 0 [] 0).sposn ≠ -1) ∧
    (∀ t : EditState, t.sposn < 0 →
      (linedit_setmode t Mode.selection).sposn = t.posn) ∧
    (∀ (t : EditState) (m : Mode), m ≠ Mode.selection →
      (linedit_setmode t m).sposn = -1) :=
  C2_selection_anchor ⟨none, none, none⟩
    (fun f hf => by cases hf) [Key.char [104], Key.sright] (by decide)
    (EditState.mk Mode.selection 1 1 ⟨true, [104]⟩ ⟨false, []⟩ [] 0 [] 0)
    (by decide)

/-- C3 counterexample: inserting at a character position strictly
greater than the character count leaves the string unchanged instead of
appending ("a" has one character; inserting "b" at position 2 does
nothing). -/
theorem C3_counterexample :
    linedit_stringinsert ⟨true, [97]⟩ 2 [98] = ⟨true, [97]⟩ ∧
    (linedit_stringinsert ⟨true, [97]⟩ 2 [98]).data ≠ [97] ++ [98] := by
  decide

/-- C3 amended: inserting at exactly the character count appends; at any
position strictly greater, the string is left unchanged. -/
theorem C3_insert_amended {cs : List (List ℕ)} (hcs : Utf8Chars cs)
    (al : Bool) (d : List ℕ) {p : ℕ} (hp : cs.length < p) :
    linedit_stringinsert ⟨al, cs.flatten⟩ cs.length d = ⟨true, cs.flatten ++ d⟩ ∧
    linedit_stringinsert ⟨al, cs.flatten⟩ p d = ⟨al, cs.flatten⟩ :=
  ⟨stringinsert_end hcs d al, stringinsert_past_end hcs hp d al⟩

/-- Witness for the amended C3 on the concrete one-character string
"a". -/
theorem C3_insert_amended_witness :
    linedit_stringinsert ⟨true, [[97]].flatten⟩ [[97]].length [98] =
      ⟨true, [[97]].flatten ++ [98]⟩ ∧
    linedit_stringinsert ⟨true, [[97]].flatten⟩ 2 [98] = ⟨true, [[97]].flatten⟩ :=
  C3_insert_amended (by decide) true [98] (by decide)

/-- C4 counterexample: deleting 2 characters starting at position 1 of
the 2-character string "ab" is a no-op instead of clamping to delete
"b". -/
theorem C4_counterexample :
    linedit_stringdelete ⟨true, [97, 98]⟩ 1 2 = ⟨true, [97, 98]⟩ ∧
    (linedit_stringdelete ⟨true, [97, 98]⟩ 1 2).data ≠ [97] := by
  decide

/-- C4 amended: deleting n characters at position posn removes exactly
those characters when posn + n lies within the character count, and is a
no-op (no clamping) when it exceeds it. -/
theorem C4_delete_amended {cs : List (List ℕ)} (hcs : Utf8Chars cs)
    (al : Bool) (l n : ℕ) :
    (l + n ≤ cs.length →
      linedit_stringdelete ⟨al, cs.flatten⟩ l n =
        ⟨al, (cs.take l ++ cs.drop (l + n)).flatten⟩) ∧
    (cs.length < l + n →
      linedit_stringdelete ⟨al, cs.flatten⟩ l n = ⟨al, cs.flatten⟩) :=
  ⟨fun h => stringdelete_eq hcs h al, fun h => stringdelete_noop hcs h al⟩

/-- Witness for the amended C4 on the concrete string "ab". -/
theorem C4_delete_amended_witness :
    (1 + 1 ≤ [[97], [98]].length →
      linedit_stringdelete ⟨true, [[97], [98]].flatten⟩ 1 1 =
        ⟨true, ([[97], [98]].take 1 ++ [[97], [98]].drop (1 + 1)).flatten⟩) ∧
    ([[97], [98]].length < 1 + 1 →
      linedit_stringdelete ⟨true, [[97], [98]].flatten⟩ 1 1 =
        ⟨true, [[97], [98]].flatten⟩) :=
  C4_delete_amended (by decide) true 1 1

/-- C5: for a valid buffer and any reachable position p, converting p to
(x, y) coordinates with linedit_stringcoordinates and back with
linedit_stringfindposition yields p again. -/
theorem C5_round_trip {cs : List (List ℕ)} (hcs : Utf8Chars cs) {p : ℕ}
    (hp : p ≤ cs.length) :
    linedit_stringfindposition cs.flatten
      (linedit_stringcoordinates cs.flatten (p : ℤ)).1
      (linedit_stringcoordinates cs.flatten (p : ℤ)).2 = p :=
  coordinates_findposition_round hcs hp

/-- Witness for C5 on the concrete buffer "a\nb" at position 3. -/
theorem C5_round_trip_witness :
    linedit_stringfindposition [[97], [10], [98]].flatten
      (linedit_stringcoordinates [[97], [10], [98]].flatten ((3 : ℕ) : ℤ)).1
      (linedit_stringcoordinates [[97], [10], [98]].flatten ((3 : ℕ) : ℤ)).2 = 3 :=
  C5_round_trip (by decide) (by decide)

theorem getD_set_ne {l : List (Option (List ℕ × ℤ))} {i j : ℕ} (h : i ≠ j)
    (x : Option (List ℕ × ℤ)) :
    (l.set i x).getD j none = l.getD j none := by
  rw [List.getD_eq_getElem?_getD, List.getD_eq_getElem?_getD,
    List.getElem?_set_ne h]

/-- A probe that reports "not found at slot p" stopped at a blank
slot. -/
theorem findLoop_false_blank {contents : List (Option (List ℕ × ℤ))}
    {cap start : ℕ} {g : List ℕ} {len : ℕ} :
    ∀ {fuel i p}, graphemefindLoop contents cap start g len i fuel = some (p, false) →
      contents.getD p none = none := by
  intro fuel
  induction fuel with
  | zero => intro i p h; cases h
  | succ fuel ih =>
    intro i p h
    unfold graphemefindLoop at h
    rcases hc : contents.getD i none with _ | e
    · rw [hc] at h
      dsimp only at h
      injection h with h
      injection h with h1 _
      rw [← h1]
      exact hc
    · rw [hc] at h
      dsimp only at h
      by_cases hs : strncmpZero g e.1 len
      · rw [if_pos hs] at h
        injection h with h
        injection h with _ h2
        cases h2
      · rw [if_neg hs] at h
        by_cases h2 : (i + 1) % cap = start
        · rw [if_pos h2] at h
          cases h
        · rw [if_neg h2] at h
          exact ih h

/-- Writing into a blank slot preserves a successful probe (the probe
path consists of occupied slots, so it avoids the written one). -/
theorem findLoop_found_preserved {contents : List (Option (List ℕ × ℤ))}
    {cap start : ℕ} {g : List ℕ} {len : ℕ} {pb : ℕ}
    (hblank : contents.getD pb none = none) (x : Option (List ℕ × ℤ)) :
    ∀ {fuel i q}, graphemefindLoop contents cap start g len i fuel = some (q, true) →
      graphemefindLoop (contents.set pb x) cap start g len i fuel = some (q, true) := by
  intro fuel
  induction fuel with
  | zero => intro i q h; cases h
  | succ fuel ih =>
    intro i q h
    unfold graphemefindLoop at h ⊢
    rcases hc : contents.getD i none with _ | e
    · rw [hc] at h
      dsimp only at h
      injection h with h
      injection h with _ h2
      cases h2
    · have hne : pb ≠ i := by
        intro hpi
        rw [hpi, hc] at hblank
        cases hblank
      rw [hc] at h
      rw [getD_set_ne hne x, hc]
      dsimp only at h ⊢
      by_cases hs : strncmpZero g e.1 len
      · rw [if_pos hs] at h ⊢
        exact h
      · rw [if_neg hs] at h ⊢
        by_cases h2 : (i + 1) % cap = start
        · rw [if_pos h2] at h
          cases h
        · rw [if_neg h2] at h ⊢
          exact ih h

set_option maxHeartbeats 2000000 in
theorem C6_counterexample :
    linedit_graphemeinsert ⟨0, [], 0⟩ [40] 1 1 = some c6d1 ∧
    linedit_graphemelookup c6d1 [40] 1 = some 1 ∧
    linedit_graphemeinsert c6d1 [40, 42] 2 2 = some c6d2 ∧
    linedit_graphemeinsert c6d2 [65] 1 1 = some c6d3 ∧
    linedit_graphemeinsert c6d3 [66] 1 1 = some c6d4 ∧
    linedit_graphemeinsert c6d4 [67] 1 1 = some c6d5 ∧
    linedit_graphemeinsert c6d5 [68] 1 1 = some c6d6 ∧
    linedit_graphemeinsert c6d6 [69] 1 1 = some c6d7 ∧
    linedit_graphemelookup c6d7 [40] 1 = some 2 := by
  refine ⟨?_, ?_, ?_, ?_, ?_, ?_, ?_, ?_, ?_⟩ <;> decide

/-- C6 amended: an insertion that does not grow the table preserves
every successful lookup (in particular re-inserting a present key
changes nothing); the monotonicity claimed for the cache fails only
through a resize, whose rehash can drop a stored grapheme whose key is
a strict prefix of another entry. -/
theorem C6_cache_amended (dict : GraphemeDict)
    (g : List ℕ) (len : ℕ) (wfound : ℤ)
    (hfound : linedit_graphemelookup dict g len = some wfound)
    (g2 : List ℕ) (len2 : ℕ) (w2 : ℤ) (d2 : GraphemeDict)
    (hcap : dict.capacity ≠ 0)
    (hth : dict.count + 1 ≤ (dict.capacity >>> 1) + (dict.capacity >>> 2))
    (hd2 : linedit_graphemeinsert dict g2 len2 w2 = some d2) :
    linedit_graphemelookup d2 g len = some wfound := by
  unfold linedit_graphemeinsert at hd2
  rw [show dict.contents.length + 8 = dict.contents.length + 7 + 1 from rfl,
    graphemeinsertFuel] at hd2
  rw [if_neg hcap, if_neg (by omega)] at hd2
  dsimp only at hd2
  rcases hf : linedit_graphemefind dict g2 len2 with _ | ⟨p, found⟩
  · rw [hf] at hd2
    cases hd2
  rcases found with _ | _
  · -- not found: the key is copied into the blank slot p
    rw [hf] at hd2
    dsimp only at hd2
    injection hd2 with hd2
    have hblank : dict.contents.getD p none = none := by
      unfold linedit_graphemefind at hf
      rw [if_neg hcap] at hf
      exact findLoop_false_blank hf
    unfold linedit_graphemelookup at hfound ⊢
    rw [if_neg hcap] at hfound
    rw [← hd2]
    dsimp only
    rw [if_neg hcap]
    unfold linedit_graphemefind at hfound ⊢
    rw [if_neg hcap] at hfound
    dsimp only
    rw [if_neg hcap]
    rcases hq : graphemefindLoop dict.contents dict.capacity
        (linedit_hashstring g % dict.capacity) g len
        (linedit_hashstring g % dict.capacity) dict.capacity with _ | ⟨q, fq⟩
    · rw [hq] at hfound
      cases hfound
    rcases fq with _ | _
    · rw [hq] at hfound
      dsimp only at hfound
      cases hfound
    rw [hq] at hfound
    dsimp only at hfound
    have hq2 := findLoop_found_preserved hblank
      (some (linedit_strndup g2 len2, w2)) hq
    rw [hq2]
    dsimp only
    have hqp : p ≠ q := by
      intro hpq
      rcases hc : dict.contents.getD q none with _ | e
      · rw [hc] at hfound
        cases hfound
      · rw [hpq, hc] at hblank
        cases hblank
    rw [getD_set_ne hqp]
    exact hfound
  · -- found: the dictionary is unchanged
    rw [hf] at hd2
    dsimp only at hd2
    injection hd2 with hd2
    rw [← hd2]
    exact hfound

set_option maxHeartbeats 1000000 in
/-- Witness for the amended C6: inserting "A" into a table caching "("
with width 1 leaves the lookup of "(" at width 1. -/
theorem C6_cache_amended_witness :
    linedit_graphemelookup
      (⟨8, [none, none, none, none, some ([65], 1), none, none,
        some ([40], 1)], 2⟩ : GraphemeDict) [40] 1 = some 1 :=
  C6_cache_amended c6d1 [40] 1 1 (by decide) [65] 1 1
    ⟨8, [none, none, none, none, some ([65], 1), none, none,
      some ([40], 1)], 2⟩ (by decide) (by decide) (by decide)

theorem tileEnd_append {out : List (ℕ × ℕ × ℕ)} {a e : ℕ}
    (h : tileEnd a out = some e) (n col : ℕ) :
    tileEnd a (out ++ [(e, n, col)]) = some (e + n) := by
  induction out generalizing a with
  | nil =>
    simp only [tileEnd] at h
    injection h with h
    subst h
    simp [tileEnd]
  | cons hd tl ih =>
    obtain ⟨o, m, c⟩ := hd
    simp only [List.cons_append, tileEnd] at h ⊢
    by_cases ho : o = a
    · rw [if_pos ho] at h ⊢
      exact ih h
    · rw [if_neg ho] at h
      cases h

theorem syntaxcolorLoop_spec (tokenizer : ℕ → Option (ℤ × ℕ × ℕ))
    (colorfn : ℤ → ℕ) (mem : ℕ → ℕ) (length : ℕ) :
    ∀ fuel c iter lexw out, iter ≤ c → tileEnd 0 out = some c →
      ((syntaxcolorLoop tokenizer colorfn mem length c iter lexw out fuel).2.2 = true →
        lexw = false ∧
        (syntaxcolorLoop tokenizer colorfn mem length c iter lexw out fuel).2.1 = true ∧
        ∃ e, tileEnd 0 (syntaxcolorLoop tokenizer colorfn mem length c iter lexw out fuel).1
              = some e ∧ length ≤ e) ∧
      (lexw = true →
        (syntaxcolorLoop tokenizer colorfn mem length c iter lexw out fuel).2.2 = false ∧
        (syntaxcolorLoop tokenizer colorfn mem length c iter lexw out fuel).2.1 = true) := by
  intro fuel
  induction fuel with
  | zero =>
    intro c iter lexw out _ _
    unfold syntaxcolorLoop
    exact ⟨fun h => (by cases h), fun hl => ⟨rfl, hl⟩⟩
  | succ fuel ih =>
    intro c iter lexw out hic htile
    unfold syntaxcolorLoop
    by_cases hm : mem c = 0
    · rw [if_pos hm]
      exact ⟨fun h => (by cases h), fun hl => ⟨rfl, hl⟩⟩
    rw [if_neg hm]
    rcases htok : tokenizer c with _ | ⟨ty, st, len⟩
    · dsimp only
      exact ⟨fun h => (by cases h), fun hl => ⟨rfl, hl⟩⟩
    dsimp only
    by_cases hcond : 0 < len ∧ c ≤ st
    · rw [if_pos hcond]
      have htile1 : tileEnd 0 (if c < st then out ++ [(c, st - c, 8)] else out)
          = some st := by
        by_cases hlt : c < st
        · rw [if_pos hlt]
          have := tileEnd_append htile (st - c) 8
          rw [this]
          congr 1
          omega
        · rw [if_neg hlt]
          have : st = c := by omega
          rw [this, htile]
      have htile2 : tileEnd 0 ((if c < st then out ++ [(c, st - c, 8)] else out)
          ++ [(st, len, colorfn ty)]) = some (st + len) :=
        tileEnd_append htile1 len (colorfn ty)
      by_cases hstall : length < iter + 1
      · rw [if_pos hstall]
        by_cases hlw : lexw = false
        · rw [if_pos hlw]
          refine ⟨fun _ => ⟨hlw, rfl, st + len, htile2, by omega⟩, fun hl => ?_⟩
          rw [hl] at hlw
          cases hlw
        · rw [if_neg hlw]
          refine ⟨fun h => (by cases h), fun hl => ⟨rfl, hl⟩⟩
      · rw [if_neg hstall]
        exact ih (st + len) (iter + 1) lexw _ (by omega) htile2
    · rw [if_neg hcond]
      exact ⟨fun h => (by cases h), fun hl => ⟨rfl, hl⟩⟩

/-- C8: when syntax coloring stalls (the tokenizer succeeds more times
than the buffer has bytes), the call aborts having already emitted
segments that tile at least the whole buffer — the unemitted remainder
of the buffer is empty — and the stderr warning is printed only with the
one-shot flag clear, which the warning latches; once the flag is set no
later call warns again, so the warning appears at most once over the
editor's lifetime. -/
theorem C8_stall_warning (tokenizer : ℕ → Option (ℤ × ℕ × ℕ))
    (colorfn : ℤ → ℕ) (mem : ℕ → ℕ) (length : ℕ) (lexw : Bool) :
    ((linedit_syntaxcolorstring tokenizer colorfn mem length lexw).2.2 = true →
      lexw = false ∧
      (linedit_syntaxcolorstring tokenizer colorfn mem length lexw).2.1 = true ∧
      ∃ e, tileEnd 0 (linedit_syntaxcolorstring tokenizer colorfn mem length lexw).1
            = some e ∧ length ≤ e) ∧
    (lexw = true →
      (linedit_syntaxcolorstring tokenizer colorfn mem length lexw).2.2 = false ∧
      (linedit_syntaxcolorstring tokenizer colorfn mem length lexw).2.1 = true) :=
  syntaxcolorLoop_spec tokenizer colorfn mem length (length + 2) 0 0 lexw []
    (Nat.le_refl 0) rfl

/-- Witness for C8: on a concrete stalling run the warning fires, the
flag latches, and the emitted segments cover the whole buffer. -/
theorem C8_stall_warning_witness :
    false = false ∧
    (linedit_syntaxcolorstring c8tok (fun _ => 0) c8mem 1 false).2.1 = true ∧
    ∃ e, tileEnd 0 (linedit_syntaxcolorstring c8tok (fun _ => 0) c8mem 1 false).1
          = some e ∧ 1 ≤ e :=
  (C8_stall_warning c8tok (fun _ => 0) c8mem 1 false).1 (by decide)

/-- C7 counterexample: the control bytes 9 and 13 do not decode to CTRL
keypresses; they are intercepted as TAB and RETURN first. -/
theorem C7_counterexample :
    linedit_readkey [9] = some (Key.tab, []) ∧
    linedit_readkey [13] = some (Key.ret, []) ∧
    (∀ c, Key.tab ≠ Key.ctrl c) ∧ (∀ c, Key.ret ≠ Key.ctrl c) :=
  ⟨by decide, by decide, fun _ h => Key.noConfusion h, fun _ h => Key.noConfusion h⟩

/-- C7 amended: a first byte b with 1 ≤ b ≤ 26 decodes to CTRL with
character byte b + 'A' - 1, except for b = 9 (TAB) and b = 13
(RETURN). -/
theorem C7_ctrl_amended (b : ℕ) (h1 : 1 ≤ b) (h2 : b ≤ 26)
    (h9 : b ≠ 9) (h13 : b ≠ 13) (rest : List ℕ) :
    linedit_readkey (b :: rest) = some (Key.ctrl (b + 65 - 1), rest) := by
  unfold linedit_readkey
  dsimp only
  rw [if_pos (by simp [iscntrl]; omega), if_neg (by omega), if_neg h9,
    if_neg (by omega), if_neg h13, if_pos ⟨by omega, by omega⟩]

/-- Witness for the amended C7 at byte 1 (Ctrl-A). -/
theorem C7_ctrl_amended_witness :
    linedit_readkey (1 :: [104]) = some (Key.ctrl (1 + 65 - 1), [104]) :=
  C7_ctrl_amended 1 (by decide) (by decide) (by decide) (by decide) [104]

theorem linedit_session_fst (cfg : EditConfig) (s0 : EditState) (keys : List Key) :
    (linedit_session cfg s0 keys).1 =
      if (linedit_session cfg s0 keys).2.current.alloc
      then some (linedit_session cfg s0 keys).2.current.data else none := rfl

/-- C9 counterexample: the session UP, RETURN never appends a byte to
the buffer, yet returns the empty string rather than NULL (UP stores ""
in the history and copying it back allocates the buffer); conversely the
session 'a', Ctrl-G appends a byte yet returns NULL. -/
theorem C9_counterexample :
    (linedit_session ⟨none, none, none⟩ initState [Key.up, Key.ret]).1 = some [] ∧
    (linedit_session ⟨none, none, none⟩ initState
        [Key.char [97], Key.ctrl 71]).1 = none := by
  decide

/-- C9 amended: linedit returns NULL exactly when the current buffer is
unallocated when the session ends; an accepted empty line returns NULL
only if nothing ever allocated the buffer, while typed-then-deleted
input returns an allocated empty string. -/
theorem C9_return_amended (cfg : EditConfig) (s0 : EditState) (keys : List Key) :
    ((linedit_session cfg s0 keys).1 = none ↔
      (linedit_session cfg s0 keys).2.current.alloc = false) ∧
    (linedit_session ⟨none, none, none⟩ initState [Key.ret]).1 = none ∧
    (linedit_session ⟨none, none, none⟩ initState
        [Key.char [97], Key.del, Key.ret]).1 = some [] := by
  refine ⟨?_, by decide, by decide⟩
  rw [linedit_session_fst]
  cases h : (linedit_session cfg s0 keys).2.current.alloc <;> simp [h]

/-- Witness for the amended C9 on a concrete session. -/
theorem C9_return_amended_witness :
    (((linedit_session ⟨none, none, none⟩ initState [Key.ret]).1 = none ↔
      (linedit_session ⟨none, none, none⟩ initState
        [Key.ret]).2.current.alloc = false) ∧
    (linedit_session ⟨none, none, none⟩ initState [Key.ret]).1 = none ∧
    (linedit_session ⟨none, none, none⟩ initState
        [Key.char [97], Key.del, Key.ret]).1 = some []) :=
  C9_return_amended ⟨none, none, none⟩ initState [Key.ret]

/-- C10 counterexample: with a completion callback installed, pressing
Ctrl-C in selection mode also resets the suggestion cursor (suggestions
are regenerated after the keypress), so the keypress does not leave
every component other than the clipboard unchanged. -/
theorem C10_counterexample :
    c10trace.mode = Mode.selection ∧ c10trace.sugposn = 1 ∧
    (linedit_processkeypress cfgXY c10trace (Key.ctrl 67)).1.sugposn = 0 := by
  decide

/-- C10 amended: processing Ctrl-C applies the copy switch case and then
regenerates suggestions; the switch case itself changes nothing outside
selection mode, and in selection mode changes only the clipboard, which
receives the bytes of the buffer between the byte offsets of the
selection endpoints; under the editor invariant with an in-range anchor
both offsets exist. -/
theorem C10_copy_amended (cfg : EditConfig) (s : EditState) :
    (linedit_processkeypress cfg s (Key.ctrl 67) =
      (linedit_generatesuggestions cfg (applyKey cfg s (Key.ctrl 67)).1, true)) ∧
    (s.mode ≠ Mode.selection → (applyKey cfg s (Key.ctrl 67)).1 = s) ∧
    (s.mode = Mode.selection →
      ∀ lindx rindx,
        linedit_stringutf8index s.current.data (sizeTOfInt (min s.sposn s.posn)) 0
          = some lindx →
        linedit_stringutf8index s.current.data (sizeTOfInt (max s.sposn s.posn)) 0
          = some rindx →
        (applyKey cfg s (Key.ctrl 67)).1 =
          { s with clipboard := ⟨true, (s.current.data.drop lindx).take (rindx - lindx)⟩ }) ∧
    (s.mode = Mode.selection → Inv s →
      s.sposn ≤ (linedit_stringlength s.current : ℤ) →
      ∃ lindx rindx,
        linedit_stringutf8index s.current.data (sizeTOfInt (min s.sposn s.posn)) 0
          = some lindx ∧
        linedit_stringutf8index s.current.data (sizeTOfInt (max s.sposn s.posn)) 0
          = some rindx) := by
  have hA : applyKey cfg s (Key.ctrl 67) =
      ((if s.mode = Mode.selection then
          (match linedit_stringutf8index s.current.data
              (sizeTOfInt (min s.sposn s.posn)) 0 with
           | none => s
           | some lindx =>
             match linedit_stringutf8index s.current.data
                 (sizeTOfInt (max s.sposn s.posn)) 0 with
             | none => s
             | some rindx =>
               let clip := linedit_stringappend (linedit_stringclear s.clipboard)
                 ((s.current.data.drop lindx).take (rindx - lindx))
               { s with clipboard := clip })
        else s), true, true) := by
    unfold applyKey
    dsimp only
    rw [if_neg (by decide), if_neg (by decide), if_pos rfl]
  refine ⟨?_, ?_, ?_, ?_⟩
  · unfold linedit_processkeypress
    rw [hA]
    dsimp only
    rw [if_pos rfl]
  · intro hm
    rw [hA]
    dsimp only
    rw [if_neg hm]
  · intro hm lindx rindx hl hr
    rw [hA]
    dsimp only
    rw [if_pos hm, hl]
    dsimp only
    rw [hr]
    simp [linedit_stringappend, linedit_stringclear, linedit_stringinit]
  · intro hm hs hsl
    obtain ⟨⟨⟨cs, hcs, hdata⟩, _, hsp, _⟩, hp0, hpl⟩ := hs
    have hspos := hsp hm
    have hlen : linedit_stringlength s.current = cs.length :=
      stringlength_of_valid hcs hdata
    rw [hlen] at hpl hsl
    refine ⟨btake cs (min s.sposn s.posn).toNat, btake cs (max s.sposn s.posn).toNat,
      ?_, ?_⟩
    · rw [hdata, sizeTOfInt_of_nonneg (by omega), stringutf8index_eq hcs,
        if_pos (by omega)]
    · rw [hdata, sizeTOfInt_of_nonneg (by omega), stringutf8index_eq hcs,
        if_pos (by omega)]

/-- Witness for the amended C10 at a concrete selection state. -/
theorem C10_copy_amended_witness :
    ((linedit_processkeypress ⟨none, none, none⟩ c10state (Key.ctrl 67) =
      (linedit_generatesuggestions ⟨none, none, none⟩
        (applyKey ⟨none, none, none⟩ c10state (Key.ctrl 67)).1, true)) ∧
    (c10state.mode ≠ Mode.selection →
      (applyKey ⟨none, none, none⟩ c10state (Key.ctrl 67)).1 = c10state) ∧
    (c10state.mode = Mode.selection →
      ∀ lindx rindx,
        linedit_stringutf8index c10state.current.data
          (sizeTOfInt (min c10state.sposn c10state.posn)) 0 = some lindx →
        linedit_stringutf8index c10state.current.data
          (sizeTOfInt (max c10state.sposn c10state.posn)) 0 = some rindx →
        (applyKey ⟨none, none, none⟩ c10state (Key.ctrl 67)).1 =
          { c10state with clipboard :=
              ⟨true, (c10state.current.data.drop lindx).take (rindx - lindx)⟩ }) ∧
    (c10state.mode = Mode.selection → Inv c10state →
      c10state.sposn ≤ (linedit_stringlength c10state.current : ℤ) →
      ∃ lindx rindx,
        linedit_stringutf8index c10state.current.data
          (sizeTOfInt (min c10state.sposn c10state.posn)) 0 = some lindx ∧
        linedit_stringutf8index c10state.current.data
          (sizeTOfInt (max c10state.sposn c10state.posn)) 0 = some rindx)) :=
  C10_copy_amended ⟨none, none, none⟩ c10state

end Linedit

